import Mathlib

/-!
# Verification of the mcpizer schema-ingestion and invocation engine

This file gives a shallow embedding, in Lean 4, of the parts of the mcpizer
code base that the specification's claims talk about:

* the gRPC tool generator (`internal/adapter/outbound/grpc`, file with
  `ToolGenerator.generateFromServiceInfos`),
* the OpenAPI tool generator and name sanitizer
  (`internal/adapter/outbound/openapi`),
* the OpenAPI auto-discoverer (`internal/adapter/outbound/openapi/autodiscover.go`),
* the HTTP invoker (`internal/adapter/outbound/httpinvoker/invoker.go`),
* the standalone .proto generator (`internal/adapter/outbound/proto/generator.go`),
* the sync orchestrator (`SyncSchemaUseCase.SyncAllConfiguredSources`),
* the in-memory tool repository (`memrepo.InMemoryToolRepository.Save`).

Strings are modelled as `List Char` (Go strings over ASCII data; byte-level
`len`/slicing coincides with character counts on the ASCII inputs the claims
concern).  Go maps handed to the generators are modelled as association
lists; where Go's randomized map-iteration order can influence an output,
the iteration order is an explicit parameter of the embedded function.
External I/O (HTTP probes, the per-source sync body) is modelled by an
explicit environment/oracle function passed as a parameter.
-/

namespace Mcpizer

/-- Go strings, modelled as lists of characters (ASCII payloads). -/
abbrev Str := List Char

/-- `strings.ToLower` (per-character; coincides with Go on ASCII input). -/
def lowerStr (s : Str) : Str := s.map Char.toLower

/-- `strings.Contains s sub` : `sub` occurs as a contiguous substring of `s`. -/
def containsSub (s sub : Str) : Bool := decide (sub <:+: s)

/-- `strings.HasSuffix s suffix`. -/
def hasSuffix (s suffix : Str) : Bool := decide (suffix <:+ s)

/-! ## C1: gRPC tool-name generation
Embedded from `ToolGenerator.generateFromServiceInfos` (grpc generator file,
name-construction block): split the service FQN on `.`, take the last
component truncated to 20 bytes, truncate the method name to 20 bytes,
compose `{svc}-{method}` lower-cased, and if the result exceeds 50 bytes,
keep the first 40 bytes and append `-` plus the hex digest of
`fnv32a(serviceFQN + "." + method) & 0xFFFF`. -/

/-- `strings.Split s (String.singleton sep)`: Go's split always returns a
non-empty slice (splitting the empty string yields `[""]`). -/
def splitOnChar (sep : Char) : Str → List Str
  | [] => [[]]
  | c :: rest =>
    match splitOnChar sep rest with
    | [] => [[c]]
    | h :: t => if c = sep then [] :: h :: t else (c :: h) :: t

/-- The byte values of an ASCII string (`[]byte(s)` for ASCII payloads). -/
def strBytes (s : Str) : List Nat := s.map (fun c => c.toNat % 256)

/-- 32-bit FNV-1a over a byte sequence (`hash/fnv.New32a` + `Write` + `Sum32`). -/
def fnv32a (bytes : List Nat) : Nat :=
  bytes.foldl (fun h b => ((h ^^^ b) * 16777619) % 4294967296) 2166136261

/-- The candidate tool name before the length check: last dot-component of
the service FQN truncated to 20, method truncated to 20, lower-cased and
joined with `-` (`fmt.Sprintf("%s-%s", strings.ToLower(servicePart),
strings.ToLower(methodPart))`). -/
def grpcCandidate (serviceFQN method : Str) : Str :=
  let parts := splitOnChar '.' serviceFQN
  let servicePart := (parts.getLastD []).take 20
  let methodPart := method.take 20
  lowerStr servicePart ++ '-' :: lowerStr methodPart

/-- The emitted tool name, including the `len(toolName) > 50` shortening
branch (`toolName[:40] + "-" + fmt.Sprintf("%x", h.Sum32()&0xFFFF)`). -/
def grpcToolName (serviceFQN method : Str) : Str :=
  let toolName := grpcCandidate serviceFQN method
  if toolName.length > 50 then
    toolName.take 40 ++
      '-' :: Nat.toDigits 16 (fnv32a (strBytes (serviceFQN ++ '.' :: method)) &&& 0xFFFF)
  else toolName

/-- The concrete service FQN of the spec's name-shortening scenario. -/
def c1ServiceFQN : Str := "very.long.package.name.ThisIsAServiceWithAVeryLongName".toList

/-- The concrete method name of the spec's name-shortening scenario. -/
def c1Method : Str := "DoSomethingExtraordinary".toList

theorem grpcCandidate_length_le (svc mth : Str) :
    (grpcCandidate svc mth).length ≤ 41 := by
  unfold grpcCandidate
  simp only [List.length_append, List.length_cons, lowerStr, List.length_map]
  have h1 := List.length_take_le 20 ((splitOnChar '.' svc).getLastD [])
  have h2 := List.length_take_le 20 mth
  omega

/-- C1 (counterexample): for the spec's concrete scenario — service FQN
`very.long.package.name.ThisIsAServiceWithAVeryLongName`, method
`DoSomethingExtraordinary` — the emitted tool name is the plain 41-byte
lower-cased truncated composition, not the claimed
"first 40 chars + `-` + hex digest" form. -/
theorem c1_shortening_cex :
    grpcToolName c1ServiceFQN c1Method
        = "thisisaservicewithav-dosomethingextraordi".toList ∧
    grpcToolName c1ServiceFQN c1Method
        ≠ (grpcCandidate c1ServiceFQN c1Method).take 40 ++
            '-' :: Nat.toDigits 16
              (fnv32a (strBytes (c1ServiceFQN ++ '.' :: c1Method)) &&& 0xFFFF) := by
  constructor
  · decide
  · decide

/-- C1 (amended): the `> 50` length check runs on the name composed from the
already-truncated 20-byte parts, whose length is at most 41, so the
shortening branch never engages: every emitted gRPC tool name equals the
plain lower-cased truncated composition and has length at most 41. -/
theorem c1_shortening_amended (svc mth : Str) :
    grpcToolName svc mth = grpcCandidate svc mth ∧
    (grpcToolName svc mth).length ≤ 41 := by
  have hle := grpcCandidate_length_le svc mth
  have heq : grpcToolName svc mth = grpcCandidate svc mth := by
    unfold grpcToolName
    simp only []
    rw [if_neg]
    omega
  exact ⟨heq, heq ▸ hle⟩

/-! ## C4 / C6: OpenAPI auto-discovery
Embedded from `internal/adapter/outbound/openapi/autodiscover.go`.
HTTP probes are modelled by an environment `env : Str → ProbeOutcome` giving
each candidate URL's response.  `url.Parse` of the base URL and the
default-scheme normalization are outside the model: the functions below take
the already-normalized base URL (`parsedURL.String()`).  The stubbed
`checkRootPageForLinks` performs no request and returns `("", nil)`, so
`DiscoverSchema` falls through to its error return; the model reflects
that by returning the error directly after the loop. -/

/-- Outcome of one HTTP GET probe: transport error, or a response with a
status code and a `Content-Type` header. -/
inductive ProbeOutcome where
  | err
  | resp (status : Nat) (contentType : Str)

/-- The fixed ordered candidate list `commonOpenAPIPaths`. -/
def commonOpenAPIPaths : List Str :=
  [ "/openapi.json".toList,
    "/docs/openapi.json".toList,
    "/swagger.json".toList,
    "/v3/api-docs".toList,
    "/api-docs".toList,
    "/api/openapi.json".toList,
    "/api/v1/openapi.json".toList,
    "/api/swagger.json".toList,
    "/swagger/v1/swagger.json".toList,
    "/_spec".toList,
    "/spec".toList,
    "/api-spec.json".toList ]

/-- The `context.WithTimeout(ctx, 5*time.Second)` bound used by every probe
in `checkOpenAPIEndpoint` (seconds). -/
def probeTimeoutSeconds : Nat := 5

/-- `AutoDiscoverer.checkOpenAPIEndpoint`: a probe succeeds iff the request
did not error, the status is 200, and the content type contains
`application/json` or `application/vnd.oai.openapi+json`.  (The Go function
also returns the transport error; `DiscoverSchema` only logs it and treats
the probe as failed, so the model keeps just the `found` boolean.) -/
def checkOpenAPIEndpoint : ProbeOutcome → Bool
  | .err => false
  | .resp status contentType =>
      status == 200 &&
        (containsSub contentType "application/json".toList ||
         containsSub contentType "application/vnd.oai.openapi+json".toList)

/-- The probe loop of `AutoDiscoverer.DiscoverSchema`: try each candidate
path in order, return the first URL whose probe succeeds; also returns the
list of URLs actually probed, in order. -/
def discoverLoop (env : Str → ProbeOutcome) (base : Str) :
    List Str → Except Unit Str × List Str
  | [] => (Except.error (), [])
  | p :: rest =>
      let u := base ++ p
      if checkOpenAPIEndpoint (env u) then (Except.ok u, [u])
      else
        let tail := discoverLoop env base rest
        (tail.1, u :: tail.2)

/-- `AutoDiscoverer.DiscoverSchema` over the fixed candidate list. -/
def discoverSchema (env : Str → ProbeOutcome) (base : Str) :
    Except Unit Str × List Str :=
  discoverLoop env base commonOpenAPIPaths

theorem discoverLoop_spec (env : Str → ProbeOutcome) (base : Str)
    (paths : List Str) :
    (match (paths.map (fun p => base ++ p)).find?
        (fun u => checkOpenAPIEndpoint (env u)) with
     | some u =>
         discoverLoop env base paths =
           (Except.ok u,
            (paths.map (fun p => base ++ p)).takeWhile
              (fun c => !(checkOpenAPIEndpoint (env c))) ++ [u])
     | none =>
         discoverLoop env base paths =
           (Except.error (), paths.map (fun p => base ++ p))) := by
  induction paths with
  | nil => simp [discoverLoop]
  | cons p rest ih =>
      by_cases h : checkOpenAPIEndpoint (env (base ++ p)) = true
      · simp [discoverLoop, List.find?, h, List.takeWhile]
      · have h' : checkOpenAPIEndpoint (env (base ++ p)) = false := by
          simpa using h
        simp only [List.map_cons, List.find?, h', List.takeWhile]
        revert ih
        cases hfind : (rest.map (fun p => base ++ p)).find?
            (fun u => checkOpenAPIEndpoint (env u)) with
        | some u =>
            intro ih
            simp [discoverLoop, h', ih]
        | none =>
            intro ih
            simp [discoverLoop, h', ih]

/-- C6 (confirmed): auto-discovery probes the fixed candidate list in its
listed order, each probe bounded by the 5-second timeout constant, and the
result is the first candidate whose probe answers HTTP 200 with an accepted
JSON content type; exactly the candidates up to and including that first
success are probed (errors and other statuses are skipped without aborting
the loop), and when no candidate is accepted every candidate is probed and
an error is returned. -/
theorem c6_autodiscovery_first_success (env : Str → ProbeOutcome) (base : Str) :
    probeTimeoutSeconds = 5 ∧
    (match (commonOpenAPIPaths.map (fun p => base ++ p)).find?
        (fun u => checkOpenAPIEndpoint (env u)) with
     | some u =>
         discoverSchema env base =
           (Except.ok u,
            (commonOpenAPIPaths.map (fun p => base ++ p)).takeWhile
              (fun c => !(checkOpenAPIEndpoint (env c))) ++ [u])
     | none =>
         discoverSchema env base =
           (Except.error (), commonOpenAPIPaths.map (fun p => base ++ p))) :=
  ⟨rfl, discoverLoop_spec env base commonOpenAPIPaths⟩

/-- `AutoDiscoverer.ResolveSchemaSource`'s direct-schema test: the lowercase
source ends in `.json`, or contains `openapi`, `swagger`, or `api-docs`. -/
def isDirectSchemaSource (source : Str) : Bool :=
  let lowerSource := lowerStr source
  hasSuffix lowerSource ".json".toList ||
    containsSub lowerSource "openapi".toList ||
    containsSub lowerSource "swagger".toList ||
    containsSub lowerSource "api-docs".toList

/-- `AutoDiscoverer.ResolveSchemaSource`: direct schema URLs are returned
as-is with no probes; otherwise auto-discovery runs, and on discovery
failure the original source is returned (manual URLs still work).  The
second component is the list of URLs probed. -/
def resolveSchemaSource (env : Str → ProbeOutcome) (source : Str) :
    Str × List Str :=
  if isDirectSchemaSource source then (source, [])
  else
    match discoverSchema env source with
    | (Except.ok u, probed) => (u, probed)
    | (Except.error _, probed) => (source, probed)

/-- C4 (counterexample): `http://example.com/schema.yaml` has a lowercase
`.yaml` suffix, yet the fetcher does not treat it as a direct schema URL:
auto-discovery probes are issued (here, with every probe failing, all 12
candidates are probed), contradicting the claim that `.yaml` sources are
fetched verbatim with no probes. -/
theorem c4_yaml_cex :
    hasSuffix (lowerStr "http://example.com/schema.yaml".toList)
        ".yaml".toList = true ∧
    isDirectSchemaSource "http://example.com/schema.yaml".toList = false ∧
    (resolveSchemaSource (fun _ => ProbeOutcome.err)
        "http://example.com/schema.yaml".toList).2 ≠ [] := by
  refine ⟨by decide, by decide, ?_⟩
  decide

/-- C4 (amended): a source whose lowercase form ends in `.json` (not
`.yaml`), or contains `openapi`, `swagger`, or `api-docs`, is treated as a
direct schema URL: it is returned verbatim and no auto-discovery probe is
issued. -/
theorem c4_direct_source_no_probes (env : Str → ProbeOutcome) (source : Str)
    (h : hasSuffix (lowerStr source) ".json".toList = true ∨
         containsSub (lowerStr source) "openapi".toList = true ∨
         containsSub (lowerStr source) "swagger".toList = true ∨
         containsSub (lowerStr source) "api-docs".toList = true) :
    resolveSchemaSource env source = (source, []) := by
  have hd : isDirectSchemaSource source = true := by
    simp only [isDirectSchemaSource, Bool.or_eq_true]
    rcases h with h | h | h | h
    · exact Or.inl (Or.inl (Or.inl h))
    · exact Or.inl (Or.inl (Or.inr h))
    · exact Or.inl (Or.inr h)
    · exact Or.inr h
  unfold resolveSchemaSource
  rw [if_pos hd]

theorem c4_direct_source_no_probes_witness :
    (hasSuffix (lowerStr "https://api.example.com/openapi.json".toList)
        ".json".toList = true ∨
     containsSub (lowerStr "https://api.example.com/openapi.json".toList)
        "openapi".toList = true ∨
     containsSub (lowerStr "https://api.example.com/openapi.json".toList)
        "swagger".toList = true ∨
     containsSub (lowerStr "https://api.example.com/openapi.json".toList)
        "api-docs".toList = true) ∧
    resolveSchemaSource (fun _ => ProbeOutcome.err)
        "https://api.example.com/openapi.json".toList
      = ("https://api.example.com/openapi.json".toList, []) :=
  ⟨Or.inl (by decide),
   c4_direct_source_no_probes (fun _ => ProbeOutcome.err) _ (Or.inl (by decide))⟩

/-! ## C8: SyncAllConfiguredSources
Embedded from `SyncSchemaUseCase.SyncAllConfiguredSources` (usecase file):
iterate the configured sources in order, run the per-source sync
(`processSingleSourceAndRegister`, modelled by the oracle `process` since
its body performs network I/O), collect each failure wrapped as
`source '%s': %w`, and return `errors.Join` of the collected errors —
`nil` when none were collected. -/

/-- A configured schema source (`usecase.SchemaSourceConfig`). -/
structure SchemaSourceConfig where
  url : Str
  headers : List (Str × Str)

/-- `fmt.Errorf("source '%s': %w", source.URL, err)`. -/
def wrapSourceErr (s : SchemaSourceConfig) (e : Str) : Str :=
  "source '".toList ++ s.url ++ "': ".toList ++ e

/-- The body of `SyncAllConfiguredSources`' loop: returns the sources
processed (in order) and the collected per-source errors (in order). -/
def syncAllLoop (process : SchemaSourceConfig → Option Str) :
    List SchemaSourceConfig → List SchemaSourceConfig × List Str
  | [] => ([], [])
  | s :: rest =>
      let tail := syncAllLoop process rest
      match process s with
      | some e => (s :: tail.1, wrapSourceErr s e :: tail.2)
      | none => (s :: tail.1, tail.2)

/-- `SyncAllConfiguredSources`: process every source, then return
`errors.Join(syncErrors...)` — `none` iff no error was collected. -/
def syncAllConfiguredSources (sources : List SchemaSourceConfig)
    (process : SchemaSourceConfig → Option Str) :
    List SchemaSourceConfig × Option (List Str) :=
  let r := syncAllLoop process sources
  (r.1, if r.2.isEmpty then none else some r.2)

theorem syncAllLoop_spec (process : SchemaSourceConfig → Option Str)
    (sources : List SchemaSourceConfig) :
    syncAllLoop process sources =
      (sources, sources.filterMap (fun s => (process s).map (wrapSourceErr s))) := by
  induction sources with
  | nil => rfl
  | cons s rest ih =>
      cases h : process s with
      | some e => simp [syncAllLoop, h, ih, List.filterMap_cons]
      | none => simp [syncAllLoop, h, ih, List.filterMap_cons]

/-- C8 (confirmed): `SyncAllConfiguredSources` processes every configured
source in configuration order (a failure never short-circuits the loop),
and the returned error is the join of the per-source errors — `none`
exactly when every source succeeded. -/
theorem c8_sync_all_never_short_circuits (sources : List SchemaSourceConfig)
    (process : SchemaSourceConfig → Option Str) :
    (syncAllConfiguredSources sources process).1 = sources ∧
    (syncAllConfiguredSources sources process).2 =
      (if (sources.filterMap (fun s => (process s).map (wrapSourceErr s))).isEmpty
       then none
       else some (sources.filterMap (fun s => (process s).map (wrapSourceErr s)))) ∧
    ((syncAllConfiguredSources sources process).2 = none ↔
       ∀ s ∈ sources, process s = none) := by
  have hloop := syncAllLoop_spec process sources
  refine ⟨?_, ?_, ?_⟩
  · simp [syncAllConfiguredSources, hloop]
  · simp [syncAllConfiguredSources, hloop]
  · simp only [syncAllConfiguredSources, hloop]
    constructor
    · intro h s hs
      by_cases hp : process s = none
      · exact hp
      · exfalso
        rcases Option.ne_none_iff_exists'.mp hp with ⟨e, he⟩
        have hmem : wrapSourceErr s e ∈
            sources.filterMap (fun s => (process s).map (wrapSourceErr s)) := by
          exact List.mem_filterMap.mpr ⟨s, hs, by simp [he]⟩
        have hne : ¬ (sources.filterMap
            (fun s => (process s).map (wrapSourceErr s))).isEmpty := by
          cases hfm : sources.filterMap (fun s => (process s).map (wrapSourceErr s)) with
          | nil => rw [hfm] at hmem; simp at hmem
          | cons a t => simp [hfm]
        simp [hne] at h
    · intro h
      have : sources.filterMap (fun s => (process s).map (wrapSourceErr s)) = [] := by
        apply List.filterMap_eq_nil_iff.mpr
        intro s hs
        simp [h s hs]
      simp [this]

/-! ## Domain data model
Embedded from `internal/domain` (`Tool`, `JSONSchemaProps`) and
`internal/usecase/invoke_tool.go` (`InvocationDetails`).  Go's
`map[string]JSONSchemaProps` for `Properties` is modelled as an association
list (construction order); `Enum []interface{}` values are carried opaquely
as strings; the `FileDescriptor interface{}` field is not modelled (no
claim observes it). -/

/-- `domain.JSONSchemaProps`. -/
inductive JSONSchemaProps where
  | mk (type : Str) (properties : List (Str × JSONSchemaProps))
       (required : List Str) (items : Option JSONSchemaProps)
       (format : Str) (enumVals : List Str)

/-- The `Type` field of a schema. -/
def JSONSchemaProps.type : JSONSchemaProps → Str
  | .mk t _ _ _ _ _ => t

/-- The `Properties` field of a schema. -/
def JSONSchemaProps.properties : JSONSchemaProps → List (Str × JSONSchemaProps)
  | .mk _ p _ _ _ _ => p

/-- The `Required` field of a schema. -/
def JSONSchemaProps.required : JSONSchemaProps → List Str
  | .mk _ _ r _ _ _ => r

/-- `domain.Tool`. -/
structure Tool where
  name : Str
  description : Str
  inputSchema : JSONSchemaProps
  outputSchema : Option JSONSchemaProps

/-- `usecase.InvocationDetails`. -/
structure InvocationDetails where
  type : Str
  host : Str
  basePath : Str
  httpMethod : Str
  httpPath : Str
  pathParams : List Str
  queryParams : List Str
  headerParams : List (Str × Str)
  bodyParam : Str
  grpcService : Str
  grpcMethod : Str
  server : Str
  method : Str
  inputType : Str
  outputType : Str
  contentType : Str

/-! ## C10: InMemoryToolRepository.Save
Embedded from `memrepo.InMemoryToolRepository.Save`: the two Go maps
(name→Tool, name→InvocationDetails) are modelled as association lists with
insert-overwrite semantics; `Save` checks the length match before any
mutation, then stores each tool with a non-empty name under its name in
both maps (skipping empty names without error). -/

/-- Decimal rendering of a natural number (`%d`). -/
def natStr (n : Nat) : Str := Nat.toDigits 10 n

/-- The `Save` error for mismatched lengths
(`fmt.Errorf("save failed: %s", fmt.Sprintf("mismatch between number of
tools (%d) and invocation details (%d)", len(tools), len(details)))`). -/
def saveMismatchErr (a b : Nat) : Str :=
  "save failed: mismatch between number of tools (".toList ++ natStr a ++
    ") and invocation details (".toList ++ natStr b ++ ")".toList

/-- Go map assignment `m[k] = v` on the association-list model. -/
def mapInsert {α : Type} (m : List (Str × α)) (k : Str) (v : α) :
    List (Str × α) :=
  (k, v) :: m.filter (fun p => !(p.1 == k))

/-- Go map read `m[k]` on the association-list model. -/
def mapLookup {α : Type} (m : List (Str × α)) (k : Str) : Option α :=
  (m.find? (fun p => p.1 == k)).map Prod.snd

/-- The repository's two maps (`tools`, `invocationDetails`). -/
structure RepoState where
  tools : List (Str × Tool)
  invocationDetails : List (Str × InvocationDetails)

/-- The storing loop of `Save` over the index-aligned pairs: tools with an
empty name are skipped, the rest are written into both maps. -/
def saveLoop (st : RepoState) : List (Tool × InvocationDetails) → RepoState
  | [] => st
  | (t, d) :: rest =>
      if t.name = [] then saveLoop st rest
      else
        saveLoop
          ⟨mapInsert st.tools t.name t, mapInsert st.invocationDetails t.name d⟩
          rest

/-- `InMemoryToolRepository.Save`: length check first, then the storing
loop; returns the (possibly updated) state and the error. -/
def saveRepo (st : RepoState) (tools : List Tool)
    (details : List InvocationDetails) : RepoState × Option Str :=
  if tools.length ≠ details.length then
    (st, some (saveMismatchErr tools.length details.length))
  else
    (saveLoop st (tools.zip details), none)

/-- The last pair in the list whose tool carries the (non-empty) name `n` —
the binding that survives in a Go map after the storing loop. -/
def lastSaved (n : Str) : List (Tool × InvocationDetails) →
    Option (Tool × InvocationDetails)
  | [] => none
  | p :: rest =>
      match lastSaved n rest with
      | some q => some q
      | none => if p.1.name == n && !p.1.name.isEmpty then some p else none

theorem mapLookup_insert_self {α : Type} (m : List (Str × α)) (k : Str) (v : α) :
    mapLookup (mapInsert m k v) k = some v := by
  simp [mapLookup, mapInsert, List.find?]

theorem mapLookup_insert_ne {α : Type} (m : List (Str × α)) (k n : Str) (v : α)
    (h : n ≠ k) : mapLookup (mapInsert m k v) n = mapLookup m n := by
  have hk : (k == n) = false := beq_eq_false_iff_ne.mpr (Ne.symm h)
  have hpred : (fun (a : Str × α) => !decide (a.1 = k) && decide (a.1 = n))
      = (fun p => p.1 == n) := by
    funext a
    by_cases ha : a.1 = n
    · simp [ha, h]
    · simp [ha]
  simp only [mapLookup, mapInsert, List.find?_cons, hk]
  induction m with
  | nil => simp
  | cons p rest ih =>
      by_cases hpk : p.1 = k
      · have h1 : (p.1 == k) = true := beq_iff_eq.mpr hpk
        have h2 : (p.1 == n) = false := by
          apply beq_eq_false_iff_ne.mpr
          rw [hpk]
          exact Ne.symm h
        simp [List.filter_cons, h1, List.find?_cons, h2, hpred, ih]
      · have h1 : (p.1 == k) = false := beq_eq_false_iff_ne.mpr hpk
        cases hpn : (p.1 == n) with
        | true => simp [List.filter_cons, h1, List.find?_cons, hpn]
        | false => simp [List.filter_cons, h1, List.find?_cons, hpn, hpred, ih]

theorem saveLoop_lookup (n : Str) (ps : List (Tool × InvocationDetails)) :
    ∀ st : RepoState,
      mapLookup (saveLoop st ps).tools n =
        (match lastSaved n ps with
         | some q => some q.1
         | none => mapLookup st.tools n) ∧
      mapLookup (saveLoop st ps).invocationDetails n =
        (match lastSaved n ps with
         | some q => some q.2
         | none => mapLookup st.invocationDetails n) := by
  induction ps with
  | nil => intro st; exact ⟨rfl, rfl⟩
  | cons p rest ih =>
      intro st
      obtain ⟨t, d⟩ := p
      by_cases hempty : t.name = []
      · have hskip : saveLoop st ((t, d) :: rest) = saveLoop st rest := by
          simp [saveLoop, hempty]
        have hlast : lastSaved n ((t, d) :: rest) = lastSaved n rest := by
          simp only [lastSaved]
          cases lastSaved n rest with
          | some q => rfl
          | none => simp [hempty]
        rw [hskip, hlast]
        exact ih st
      · have hstep : saveLoop st ((t, d) :: rest) =
            saveLoop ⟨mapInsert st.tools t.name t,
                      mapInsert st.invocationDetails t.name d⟩ rest := by
          simp [saveLoop, hempty]
        rw [hstep]
        have ih' := ih ⟨mapInsert st.tools t.name t,
                        mapInsert st.invocationDetails t.name d⟩
        rcases ih' with ⟨ih1, ih2⟩
        simp only [lastSaved]
        cases hl : lastSaved n rest with
        | some q =>
            rw [hl] at ih1 ih2
            exact ⟨ih1, ih2⟩
        | none =>
            rw [hl] at ih1 ih2
            simp only [] at ih1 ih2
            by_cases hn : t.name = n
            · have hcond : (t.name == n && !t.name.isEmpty) = true := by
                simp [hn, List.isEmpty_iff]
                rw [← hn]; exact hempty
              simp only [hcond, if_pos trivial]
              subst hn
              rw [ih1, ih2, mapLookup_insert_self, mapLookup_insert_self]
              exact ⟨rfl, rfl⟩
            · have hcond : (t.name == n && !t.name.isEmpty) = false := by
                simp [hn]
              rw [hcond, if_neg Bool.false_ne_true, ih1, ih2,
                  mapLookup_insert_ne _ _ _ _ (fun hh => hn hh.symm),
                  mapLookup_insert_ne _ _ _ _ (fun hh => hn hh.symm)]
              exact ⟨rfl, rfl⟩

theorem lastSaved_mem (n : Str) (ps : List (Tool × InvocationDetails))
    (q : Tool × InvocationDetails) (h : lastSaved n ps = some q) :
    q ∈ ps ∧ q.1.name = n := by
  induction ps with
  | nil => simp [lastSaved] at h
  | cons p rest ih =>
      simp only [lastSaved] at h
      cases hl : lastSaved n rest with
      | some q' =>
          rw [hl] at h
          obtain rfl : q' = q := by simpa using h
          rcases ih hl with ⟨hmem, hname⟩
          exact ⟨List.mem_cons_of_mem _ hmem, hname⟩
      | none =>
          rw [hl] at h
          by_cases hc : (p.1.name == n && !p.1.name.isEmpty) = true
          · rw [if_pos hc] at h
            obtain rfl : p = q := by simpa using h
            refine ⟨List.mem_cons_self _ _, ?_⟩
            have := (Bool.and_eq_true _ _).mp hc
            simpa using this.1
          · rw [if_neg hc] at h
            simp at h

theorem lastSaved_isSome_of_mem (n : Str) (ps : List (Tool × InvocationDetails))
    (hn : n ≠ []) (h : ∃ p ∈ ps, p.1.name = n) :
    ∃ q, lastSaved n ps = some q := by
  induction ps with
  | nil => simp at h
  | cons p rest ih =>
      simp only [lastSaved]
      cases hl : lastSaved n rest with
      | some q => exact ⟨q, rfl⟩
      | none =>
          rcases h with ⟨p', hp', hname⟩
          rcases List.mem_cons.mp hp' with rfl | hmem
          · have hc : (p'.1.name == n && !p'.1.name.isEmpty) = true := by
              simp [hname, List.isEmpty_iff, hn]
            exact ⟨p', by rw [if_pos hc]⟩
          · rcases ih ⟨p', hmem, hname⟩ with ⟨q, hq⟩
            rw [hq] at hl
            cases hl

/-- C10 (confirmed): `Save` with mismatched slice lengths errors and leaves
both maps unchanged (the length check precedes any mutation); on the
success path there is no error, every non-empty tool name is stored in
both maps bound to one of the index-aligned (tool, details) pairs carrying
that name, and names not among the saved non-empty names (in particular
the empty name of skipped tools) keep their previous bindings. -/
theorem c10_repo_save (st : RepoState) (tools : List Tool)
    (details : List InvocationDetails) :
    (tools.length ≠ details.length →
       saveRepo st tools details =
         (st, some (saveMismatchErr tools.length details.length))) ∧
    (tools.length = details.length →
       (saveRepo st tools details).2 = none ∧
       (∀ n : Str, n ≠ [] → n ∈ tools.map Tool.name →
          ∃ td ∈ tools.zip details, td.1.name = n ∧
            mapLookup (saveRepo st tools details).1.tools n = some td.1 ∧
            mapLookup (saveRepo st tools details).1.invocationDetails n
              = some td.2) ∧
       (∀ n : Str, lastSaved n (tools.zip details) = none →
          mapLookup (saveRepo st tools details).1.tools n
              = mapLookup st.tools n ∧
          mapLookup (saveRepo st tools details).1.invocationDetails n
              = mapLookup st.invocationDetails n)) := by
  constructor
  · intro hne
    simp [saveRepo, hne]
  · intro heq
    have hok : saveRepo st tools details = (saveLoop st (tools.zip details), none) := by
      simp [saveRepo, heq]
    refine ⟨by rw [hok], ?_, ?_⟩
    · intro n hn hmem
      rcases List.mem_map.mp hmem with ⟨t, htmem, hname⟩
      have hzip : ∃ p ∈ tools.zip details, p.1.name = n := by
        rcases List.mem_iff_getElem.mp htmem with ⟨i, hi, hget⟩
        have hic : i < details.length := by omega
        refine ⟨(tools.get ⟨i, hi⟩, details.get ⟨i, hic⟩), ?_, ?_⟩
        · apply List.mem_iff_getElem.mpr
          refine ⟨i, by simp [List.length_zip]; omega, ?_⟩
          simp [List.get_eq_getElem]
        · simpa [List.get_eq_getElem, hget] using hname
      rcases lastSaved_isSome_of_mem n (tools.zip details) hn hzip with ⟨q, hq⟩
      rcases lastSaved_mem n (tools.zip details) q hq with ⟨hqmem, hqname⟩
      have hlook := saveLoop_lookup n (tools.zip details) st
      rw [hq] at hlook
      exact ⟨q, hqmem, hqname, by rw [hok]; exact hlook.1,
             by rw [hok]; exact hlook.2⟩
    · intro n hnone
      have hlook := saveLoop_lookup n (tools.zip details) st
      rw [hnone] at hlook
      exact ⟨by rw [hok]; exact hlook.1, by rw [hok]; exact hlook.2⟩

/-- An empty object input schema, used by concrete witnesses. -/
def sampleObjectSchema : JSONSchemaProps :=
  JSONSchemaProps.mk "object".toList [] [] none [] []

/-- A sample HTTP `InvocationDetails` record used by concrete witnesses. -/
def sampleDetails : InvocationDetails :=
  ⟨"http".toList, "http://h".toList, [], "GET".toList, "/x".toList,
   [], [], [], [], [], [], [], [], [], [], []⟩

theorem c10_repo_save_witness :
    (saveRepo ⟨[], []⟩ [Tool.mk "t1".toList [] sampleObjectSchema none] [] =
       (⟨[], []⟩, some (saveMismatchErr 1 0))) ∧
    ((saveRepo ⟨[], []⟩ [Tool.mk "t1".toList [] sampleObjectSchema none]
        [sampleDetails]).2 = none ∧
     ∃ td ∈ [Tool.mk "t1".toList [] sampleObjectSchema none].zip [sampleDetails],
       td.1.name = "t1".toList ∧
       mapLookup (saveRepo ⟨[], []⟩
           [Tool.mk "t1".toList [] sampleObjectSchema none]
           [sampleDetails]).1.tools "t1".toList = some td.1 ∧
       mapLookup (saveRepo ⟨[], []⟩
           [Tool.mk "t1".toList [] sampleObjectSchema none]
           [sampleDetails]).1.invocationDetails "t1".toList = some td.2) :=
  ⟨(c10_repo_save ⟨[], []⟩ [Tool.mk "t1".toList [] sampleObjectSchema none]
      []).1 (by decide),
   ⟨((c10_repo_save ⟨[], []⟩ [Tool.mk "t1".toList [] sampleObjectSchema none]
       [sampleDetails]).2 rfl).1,
    ((c10_repo_save ⟨[], []⟩ [Tool.mk "t1".toList [] sampleObjectSchema none]
       [sampleDetails]).2 rfl).2.1 "t1".toList (by decide) (by simp)⟩⟩

/-! ## gRPC reflection generator
Embedded from the grpc adapter's `ToolGenerator.generateFromServiceInfos`
and its protobuf → JSON-Schema helpers (`convertProtoToJSONSchema`,
`protoFieldToJSONSchema`, `protoTypeToJSONSchema`).  The Go append loops
are rendered as structural recursions producing the same lists in the same
order. -/

/-- A schema with only its `Type` set (all other Go fields zero). -/
def basicSchema (t : Str) : JSONSchemaProps :=
  JSONSchemaProps.mk t [] [] none [] []

/-- `descriptorpb.FieldDescriptorProto_Type` (the cases the code
distinguishes). -/
inductive PFieldType where
  | double | float
  | int64 | uint64 | int32 | uint32 | sint32 | sint64
  | fixed32 | fixed64 | sfixed32 | sfixed64
  | bool | string | bytes | message | enumTy | group
deriving DecidableEq

/-- `descriptorpb.FieldDescriptorProto`: name, type, and whether the label
is `LABEL_REPEATED`. -/
structure FieldDescriptorProto where
  name : Str
  typ : PFieldType
  repeated : Bool

/-- `descriptorpb.DescriptorProto` (message descriptor: its fields). -/
structure DescriptorProto where
  field : List FieldDescriptorProto

/-- `protoTypeToJSONSchema` (grpc generator): scalar protobuf type →
JSON-Schema type; nested messages become bare `{type:object}`; unknown
types default to string. -/
def protoTypeToJSONSchema : PFieldType → JSONSchemaProps
  | .double | .float => basicSchema "number".toList
  | .int64 | .uint64 | .int32 | .uint32 | .sint32 | .sint64
  | .fixed32 | .fixed64 | .sfixed32 | .sfixed64 => basicSchema "integer".toList
  | .bool => basicSchema "boolean".toList
  | .string => basicSchema "string".toList
  | .bytes => JSONSchemaProps.mk "string".toList [] [] none "byte".toList []
  | .message => basicSchema "object".toList
  | .enumTy => basicSchema "string".toList
  | .group => basicSchema "string".toList

/-- `protoFieldToJSONSchema` (grpc generator): repeated fields become
arrays of the element schema, singular fields map their type. -/
def protoFieldToJSONSchema (f : FieldDescriptorProto) : JSONSchemaProps :=
  if f.repeated then
    JSONSchemaProps.mk "array".toList [] [] (some (protoTypeToJSONSchema f.typ)) [] []
  else protoTypeToJSONSchema f.typ

/-- `convertProtoToJSONSchema` (grpc generator): `nil` descriptor → bare
object schema; otherwise an object schema whose properties are the
message's fields (proto3 fields all optional, `required` stays empty). -/
def convertProtoToJSONSchema (descriptor : Option DescriptorProto) :
    JSONSchemaProps :=
  match descriptor with
  | none => basicSchema "object".toList
  | some d =>
      JSONSchemaProps.mk "object".toList
        (d.field.map (fun f => (f.name, protoFieldToJSONSchema f))) [] none [] []

/-- `grpc.MethodInfo`. -/
structure MethodInfo where
  name : Str
  inputType : Str
  outputType : Str
  clientStreaming : Bool
  serverStreaming : Bool
  inputDescriptor : Option DescriptorProto
  outputDescriptor : Option DescriptorProto

/-- `grpc.ServiceInfo`. -/
structure ServiceInfo where
  name : Str
  methods : List MethodInfo

/-- The tool and invocation details generated for one unary gRPC method. -/
def grpcMethodTool (source : Str) (svc : ServiceInfo) (m : MethodInfo) :
    Tool × InvocationDetails :=
  (⟨grpcToolName svc.name m.name,
    "Calls ".toList ++ svc.name ++ '.' :: m.name ++ " gRPC method".toList,
    convertProtoToJSONSchema m.inputDescriptor,
    some (convertProtoToJSONSchema m.outputDescriptor)⟩,
   ⟨"grpc".toList, source, [], [], [], [], [], [], [],
    svc.name, m.name, [], [], [], [], []⟩)

/-- The inner method loop of `generateFromServiceInfos`: streaming methods
(`ClientStreaming || ServerStreaming`) are skipped with a warning, the
rest contribute one tool each, in order. -/
def grpcGenMethods (source : Str) (svc : ServiceInfo) :
    List MethodInfo → List Tool × List InvocationDetails
  | [] => ([], [])
  | m :: rest =>
      let tail := grpcGenMethods source svc rest
      if m.clientStreaming || m.serverStreaming then tail
      else ((grpcMethodTool source svc m).1 :: tail.1,
            (grpcMethodTool source svc m).2 :: tail.2)

/-- The outer service loop of `generateFromServiceInfos`. -/
def grpcGenServices (source : Str) :
    List ServiceInfo → List Tool × List InvocationDetails
  | [] => ([], [])
  | svc :: rest =>
      let h := grpcGenMethods source svc svc.methods
      let t := grpcGenServices source rest
      (h.1 ++ t.1, h.2 ++ t.2)

/-- `ToolGenerator.generateFromServiceInfos`. -/
def generateFromServiceInfos (source : Str) (infos : List ServiceInfo) :
    List Tool × List InvocationDetails :=
  grpcGenServices source infos

/-! ## Standalone .proto generator
Embedded from `proto.Generator.Generate` and its helpers
(`generateInputSchema`, `fieldToJSONSchema`, `scalarTypeToJSONSchema`,
`messageToJSONSchema`).  The `.proto` text parsing (`protoparse`) is an
external library; the model starts from the parsed file descriptor the
generator's loop walks.  Message descriptors are modelled as finite trees
(mutual inductives) so the mutual recursion of `fieldToJSONSchema` /
`messageToJSONSchema` is structural. -/

mutual
/-- `desc.MessageDescriptor`: its fields. -/
inductive ProtoMsg where
  | mk (fields : ProtoFields)
/-- The field list of a message descriptor. -/
inductive ProtoFields where
  | nil
  | cons (f : ProtoField) (rest : ProtoFields)
/-- `desc.FieldDescriptor`: name, JSON name, type, `IsRepeated`, `IsMap`,
`IsRequired`, and (for message-typed fields) the message descriptor. -/
inductive ProtoField where
  | mk (name : Str) (jsonName : Str) (typ : PFieldType) (repeated : Bool)
       (isMap : Bool) (required : Bool) (message : ProtoMsgOpt)
/-- `field.GetMessageType()`: possibly-nil message descriptor. -/
inductive ProtoMsgOpt where
  | none
  | some (m : ProtoMsg)
end

/-- `field.GetJSONName()`, falling back to `field.GetName()` when empty. -/
def protoFieldName : ProtoField → Str
  | .mk name jsonName _ _ _ _ _ => if jsonName = [] then name else jsonName

/-- `field.IsRequired()`. -/
def protoFieldIsRequired : ProtoField → Bool
  | .mk _ _ _ _ _ required _ => required

/-- `scalarTypeToJSONSchema` (proto generator): like the grpc mapping but
with no `TYPE_MESSAGE` case — message (and group) types fall into the
string default. -/
def scalarTypeToJSONSchema : PFieldType → JSONSchemaProps
  | .double | .float => basicSchema "number".toList
  | .int64 | .uint64 | .int32 | .uint32 | .sint32 | .sint64
  | .fixed32 | .fixed64 | .sfixed32 | .sfixed64 => basicSchema "integer".toList
  | .bool => basicSchema "boolean".toList
  | .string => basicSchema "string".toList
  | .bytes => JSONSchemaProps.mk "string".toList [] [] none "byte".toList []
  | .enumTy => basicSchema "string".toList
  | .message => basicSchema "string".toList
  | .group => basicSchema "string".toList

mutual
/-- `Generator.fieldToJSONSchema`: repeated → array of the scalar element
schema (note: repeated message fields get string items, faithful to the
code); map → bare object; message → recurse into the message descriptor
(a nil descriptor cannot occur for a message-typed field and is rendered
as the bare object schema); otherwise the scalar mapping. -/
def protoFieldToSchema : ProtoField → JSONSchemaProps
  | .mk _ _ typ repeated isMap _ msg =>
      if repeated then
        JSONSchemaProps.mk "array".toList [] [] (some (scalarTypeToJSONSchema typ)) [] []
      else if isMap then basicSchema "object".toList
      else if typ = .message then
        match msg with
        | .some m => protoMsgToSchema m
        | .none => basicSchema "object".toList
      else scalarTypeToJSONSchema typ

/-- `Generator.messageToJSONSchema`: object schema over the message's
fields (named by `GetJSONName()`, falling back to `GetName()`), with
`required` collecting the explicitly-required fields. -/
def protoMsgToSchema : ProtoMsg → JSONSchemaProps
  | .mk fields =>
      JSONSchemaProps.mk "object".toList (protoFieldsProps fields)
        (protoFieldsRequired fields) none [] []

/-- The properties built by the field loop, in field order. -/
def protoFieldsProps : ProtoFields → List (Str × JSONSchemaProps)
  | .nil => []
  | .cons f rest =>
      (protoFieldName f, protoFieldToSchema f) :: protoFieldsProps rest

/-- The `required` list built by the field loop. -/
def protoFieldsRequired : ProtoFields → List Str
  | .nil => []
  | .cons f rest =>
      if protoFieldIsRequired f then protoFieldName f :: protoFieldsRequired rest
      else protoFieldsRequired rest
end

/-- A method of a parsed `.proto` service: name, input message descriptor,
input/output type names, streaming flags (present on the descriptor but
never consulted by this generator), leading comments. -/
structure ProtoMethod where
  name : Str
  input : ProtoMsg
  inputTypeName : Str
  outputTypeName : Str
  clientStreaming : Bool
  serverStreaming : Bool
  leadingComments : Str

/-- A service of a parsed `.proto` file. -/
structure ProtoService where
  name : Str
  methods : List ProtoMethod

/-- A parsed `.proto` file descriptor: package name and services. -/
structure ProtoFile where
  pkg : Str
  services : List ProtoService

/-- Go `unicode.IsSpace` restricted to the ASCII whitespace the inputs
contain. -/
def isSpaceChar (c : Char) : Bool :=
  c = ' ' || c = '\t' || c = '\n' || c = '\r'

/-- `strings.TrimSpace`. -/
def trimSpace (s : Str) : Str :=
  ((s.dropWhile isSpaceChar).reverse.dropWhile isSpaceChar).reverse

/-- `Generator.generateMethodDescription`: leading comments when present,
else a default description. -/
def protoMethodDescription (m : ProtoMethod) : Str :=
  if m.leadingComments ≠ [] then trimSpace m.leadingComments
  else "Invokes the gRPC method ".toList ++ m.name

/-- `Generator.generateInputSchema`: object schema over the input message's
fields. -/
def protoGenInputSchema (m : ProtoMethod) : JSONSchemaProps :=
  match m.input with
  | .mk fields =>
      JSONSchemaProps.mk "object".toList (protoFieldsProps fields)
        (protoFieldsRequired fields) none [] []

/-- The tool and invocation details generated for one `.proto` method
(note: no streaming check — every method of every service yields a tool).
The `FileDescriptor` stored for the invoker is not modelled. -/
def protoMethodTool (serverURL pkg : Str) (svcName : Str) (m : ProtoMethod) :
    Tool × InvocationDetails :=
  (⟨svcName ++ '_' :: m.name, protoMethodDescription m,
    protoGenInputSchema m, none⟩,
   ⟨"grpc".toList, [], [], [], [], [], [], [], [], [], [],
    serverURL, '/' :: pkg ++ '.' :: svcName ++ '/' :: m.name,
    m.inputTypeName, m.outputTypeName, []⟩)

/-- The method loop of `proto.Generator.Generate` (no streaming filter). -/
def protoGenMethods (serverURL pkg svcName : Str) :
    List ProtoMethod → List Tool × List InvocationDetails
  | [] => ([], [])
  | m :: rest =>
      let tail := protoGenMethods serverURL pkg svcName rest
      ((protoMethodTool serverURL pkg svcName m).1 :: tail.1,
       (protoMethodTool serverURL pkg svcName m).2 :: tail.2)

/-- The service loop of `proto.Generator.Generate`. -/
def protoGenServices (serverURL pkg : Str) :
    List ProtoService → List Tool × List InvocationDetails
  | [] => ([], [])
  | svc :: rest =>
      let h := protoGenMethods serverURL pkg svc.name svc.methods
      let t := protoGenServices serverURL pkg rest
      (h.1 ++ t.1, h.2 ++ t.2)

/-- `proto.Generator.Generate` after parsing: fails when no server URL was
configured, otherwise walks every service and every method. -/
def protoGenerate (serverURL : Str) (file : ProtoFile) :
    Except Str (List Tool × List InvocationDetails) :=
  if serverURL = [] then
    Except.error "server URL is required for .proto schemas".toList
  else Except.ok (protoGenServices serverURL file.pkg file.services)

/-- A `.proto` file containing a single service whose only method is
server-streaming. -/
def c3StreamMethod : ProtoMethod :=
  ⟨"StreamResults".toList, ProtoMsg.mk ProtoFields.nil,
   "calc.StreamRequest".toList, "calc.StreamResponse".toList,
   false, true, []⟩

/-- The containing file of `c3StreamMethod`. -/
def c3File : ProtoFile :=
  ⟨"calc".toList, [⟨"Calculator".toList, [c3StreamMethod]⟩]⟩

/-- C3 (counterexample): for a standalone `.proto` schema containing a
single server-streaming method, the proto generator still emits a tool
(`Calculator_StreamResults`), contradicting the claim that no tool is
produced for streaming methods regardless of schema source. -/
theorem c3_proto_streaming_cex :
    c3StreamMethod.serverStreaming = true ∧
    (match protoGenerate "grpc://localhost:50051".toList c3File with
     | Except.ok p => p.1.map Tool.name
     | Except.error _ => []) = ["Calculator_StreamResults".toList] := by
  constructor
  · rfl
  · rfl

theorem grpcGenMethods_eq_filter (source : Str) (svc : ServiceInfo)
    (ms : List MethodInfo) :
    grpcGenMethods source svc ms =
      ((ms.filter (fun m => !(m.clientStreaming || m.serverStreaming))).map
         (fun m => (grpcMethodTool source svc m).1),
       (ms.filter (fun m => !(m.clientStreaming || m.serverStreaming))).map
         (fun m => (grpcMethodTool source svc m).2)) := by
  induction ms with
  | nil => rfl
  | cons m rest ih =>
      simp only [grpcGenMethods, ih, List.filter_cons]
      cases hc : m.clientStreaming with
      | true => simp [hc]
      | false =>
          cases hsv : m.serverStreaming with
          | true => simp [hc, hsv]
          | false => simp [hc, hsv]

theorem protoGenMethods_eq_map (serverURL pkg svcName : Str)
    (ms : List ProtoMethod) :
    protoGenMethods serverURL pkg svcName ms =
      (ms.map (fun m => (protoMethodTool serverURL pkg svcName m).1),
       ms.map (fun m => (protoMethodTool serverURL pkg svcName m).2)) := by
  induction ms with
  | nil => rfl
  | cons m rest ih => simp [protoGenMethods, ih]

/-- C3 (amended): the gRPC-reflection generator emits exactly one tool per
non-streaming method (methods with the client- or server-streaming flag
set are skipped), but the standalone `.proto` generator emits one tool for
every method of every service, streaming flags included. -/
theorem c3_streaming_methods_amended (source : Str) (infos : List ServiceInfo)
    (serverURL pkg svcName : Str) (ms : List ProtoMethod)
    (hsrv : serverURL ≠ []) :
    generateFromServiceInfos source infos =
      (infos.flatMap (fun svc =>
         ((svc.methods.filter
             (fun m => !(m.clientStreaming || m.serverStreaming))).map
            (fun m => (grpcMethodTool source svc m).1))),
       infos.flatMap (fun svc =>
         ((svc.methods.filter
             (fun m => !(m.clientStreaming || m.serverStreaming))).map
            (fun m => (grpcMethodTool source svc m).2)))) ∧
    protoGenMethods serverURL pkg svcName ms =
      (ms.map (fun m => (protoMethodTool serverURL pkg svcName m).1),
       ms.map (fun m => (protoMethodTool serverURL pkg svcName m).2)) ∧
    protoGenerate serverURL ⟨pkg, [⟨svcName, ms⟩]⟩ =
      Except.ok
        (ms.map (fun m => (protoMethodTool serverURL pkg svcName m).1),
         ms.map (fun m => (protoMethodTool serverURL pkg svcName m).2)) := by
  refine ⟨?_, protoGenMethods_eq_map serverURL pkg svcName ms, ?_⟩
  · unfold generateFromServiceInfos
    induction infos with
    | nil => rfl
    | cons svc rest ih =>
        simp [grpcGenServices, grpcGenMethods_eq_filter, ih,
          List.flatMap_cons]
    -- each service contributes its filtered methods, concatenated in order
  · unfold protoGenerate
    rw [if_neg hsrv]
    simp [protoGenServices, protoGenMethods_eq_map]

theorem c3_streaming_methods_amended_witness :
    generateFromServiceInfos "grpc://h".toList
        [⟨"pkg.Svc".toList,
          [⟨"Watch".toList, [], [], false, true, none, none⟩]⟩] =
      ([], []) ∧
    protoGenerate "grpc://localhost:50051".toList c3File =
      Except.ok
        ([c3StreamMethod].map
           (fun m => (protoMethodTool "grpc://localhost:50051".toList
              "calc".toList "Calculator".toList m).1),
         [c3StreamMethod].map
           (fun m => (protoMethodTool "grpc://localhost:50051".toList
              "calc".toList "Calculator".toList m).2)) := by
  have h := c3_streaming_methods_amended "grpc://h".toList
    [⟨"pkg.Svc".toList, [⟨"Watch".toList, [], [], false, true, none, none⟩]⟩]
    "grpc://localhost:50051".toList "calc".toList "Calculator".toList
    [c3StreamMethod] (by decide)
  refine ⟨?_, h.2.2⟩
  rw [h.1]
  rfl

/-! ## OpenAPI name sanitizer
Embedded from `sanitizeName` in the openapi generator: lower-case, replace
each of space, `-`, `/`, `.` with `_` (`strings.NewReplacer` over
single-character pairs is a simultaneous character map), collapse runs of
`__` by iterating `strings.ReplaceAll(name, "__", "_")` until no `__`
remains, then `strings.Trim(name, "_")`.  `collapseLoop` is the literal
Go loop; `squashUS` is a structurally recursive function proved equal to
it (`collapseLoop_eq_squash`), used so that concrete witnesses can be
evaluated by the kernel. -/

/-- The character replacement of `strings.NewReplacer(" ", "_", "-", "_",
"/", "_", ".", "_")`. -/
def sanitizeReplaceChar (c : Char) : Char :=
  if c = ' ' ∨ c = '-' ∨ c = '/' ∨ c = '.' then '_' else c

/-- One `replacer.Replace` pass. -/
def sanitizeReplace (s : Str) : Str := s.map sanitizeReplaceChar

/-- One pass of `strings.ReplaceAll(name, "__", "_")` (leftmost,
non-overlapping). -/
def replaceDoubleUS : Str → Str
  | [] => []
  | [c] => [c]
  | a :: b :: t =>
      if a = '_' ∧ b = '_' then '_' :: replaceDoubleUS t
      else a :: replaceDoubleUS (b :: t)

theorem replaceDoubleUS_length_le (s : Str) :
    (replaceDoubleUS s).length ≤ s.length := by
  match s with
  | [] => simp [replaceDoubleUS]
  | [c] => simp [replaceDoubleUS]
  | a :: b :: t =>
      by_cases h : a = '_' ∧ b = '_'
      · have ih := replaceDoubleUS_length_le t
        simp only [replaceDoubleUS, if_pos h, List.length_cons]
        omega
      · have ih := replaceDoubleUS_length_le (b :: t)
        simp only [replaceDoubleUS, if_neg h, List.length_cons]
        simp only [List.length_cons] at ih
        omega

theorem replaceDoubleUS_length_lt (s : Str) (h : ['_', '_'] <:+: s) :
    (replaceDoubleUS s).length < s.length := by
  match s with
  | [] =>
      exact absurd h (by simp)
  | [c] =>
      have := h.length_le
      simp at this
  | a :: b :: t =>
      by_cases hab : a = '_' ∧ b = '_'
      · have ih := replaceDoubleUS_length_le t
        simp only [replaceDoubleUS, if_pos hab, List.length_cons]
        omega
      · have h' : ['_', '_'] <:+: b :: t := by
          rcases List.infix_cons_iff.mp h with hpre | hinf
          · exfalso
            rcases hpre with ⟨rest, hrest⟩
            injection hrest with h1 hrest'
            injection hrest' with h2 _
            exact hab ⟨h1.symm, h2.symm⟩
          · exact hinf
        have ih := replaceDoubleUS_length_lt (b :: t) h'
        simp only [replaceDoubleUS, if_neg hab, List.length_cons]
        simp only [List.length_cons] at ih
        omega

/-- The Go loop `for strings.Contains(name, "__") { name =
strings.ReplaceAll(name, "__", "_") }`.  It terminates because each pass
strictly shortens a string containing `__`. -/
def collapseLoop (s : Str) : Str :=
  if h : containsSub s "__".toList = true then collapseLoop (replaceDoubleUS s)
  else s
termination_by s.length
decreasing_by
  simp only [containsSub, decide_eq_true_eq] at h
  exact replaceDoubleUS_length_lt s h

mutual
/-- Structural form of the collapse loop's fixpoint: each maximal run of
underscores becomes a single underscore. -/
def squashUS : Str → Str
  | [] => []
  | c :: rest => if c = '_' then '_' :: squashTail rest else c :: squashUS rest
/-- After emitting an underscore: drop the rest of the run, then continue. -/
def squashTail : Str → Str
  | [] => []
  | c :: rest => if c = '_' then squashTail rest else c :: squashUS rest
end

theorem replaceDoubleUS_cons2_pos (t : Str) :
    replaceDoubleUS ('_' :: '_' :: t) = '_' :: replaceDoubleUS t := by
  simp [replaceDoubleUS]

theorem replaceDoubleUS_cons2_neg (a b : Char) (t : Str)
    (h : ¬(a = '_' ∧ b = '_')) :
    replaceDoubleUS (a :: b :: t) = a :: replaceDoubleUS (b :: t) := by
  simp only [replaceDoubleUS, if_neg h]

theorem squashUS_cons_us (rest : Str) :
    squashUS ('_' :: rest) = '_' :: squashTail rest := by
  simp [squashUS]

theorem squashUS_cons_ne (c : Char) (rest : Str) (h : c ≠ '_') :
    squashUS (c :: rest) = c :: squashUS rest := by
  simp only [squashUS, if_neg h]

theorem squashTail_cons_us (rest : Str) :
    squashTail ('_' :: rest) = squashTail rest := by
  simp [squashTail]

theorem squashTail_cons_ne (c : Char) (rest : Str) (h : c ≠ '_') :
    squashTail (c :: rest) = c :: squashUS rest := by
  simp only [squashTail, if_neg h]

theorem squash_replaceDouble (s : Str) :
    squashUS (replaceDoubleUS s) = squashUS s ∧
    squashTail (replaceDoubleUS s) = squashTail s := by
  match s with
  | [] => exact ⟨rfl, rfl⟩
  | [c] => exact ⟨rfl, rfl⟩
  | a :: b :: t =>
      by_cases hab : a = '_' ∧ b = '_'
      · obtain ⟨ha, hb⟩ := hab
        subst ha
        subst hb
        have ih := squash_replaceDouble t
        rw [replaceDoubleUS_cons2_pos]
        constructor
        · simp only [squashUS_cons_us, squashTail_cons_us, ih.2]
        · simp only [squashTail_cons_us, ih.2]
      · have ih := squash_replaceDouble (b :: t)
        rw [replaceDoubleUS_cons2_neg _ _ _ hab]
        by_cases ha : a = '_'
        · subst ha
          constructor
          · simp only [squashUS_cons_us, ih.2]
          · simp only [squashTail_cons_us, ih.2]
        · constructor
          · simp only [squashUS_cons_ne _ _ ha, ih.1]
          · simp only [squashTail_cons_ne _ _ ha, ih.1]

theorem squash_eq_self_of_noDouble (s : Str) (h : ¬ (['_', '_'] <:+: s)) :
    squashUS s = s ∧ (s.head? ≠ some '_' → squashTail s = s) := by
  match s with
  | [] => exact ⟨rfl, fun _ => rfl⟩
  | c :: rest =>
      have hrest : ¬ (['_', '_'] <:+: rest) := fun hr => h (List.infix_cons hr)
      have ih := squash_eq_self_of_noDouble rest hrest
      by_cases hc : c = '_'
      · subst hc
        have hr : rest.head? ≠ some '_' := by
          intro hh
          cases rest with
          | nil => simp at hh
          | cons d t =>
              simp only [List.head?_cons, Option.some.injEq] at hh
              subst hh
              exact h ⟨[], t, rfl⟩
        refine ⟨?_, ?_⟩
        · rw [squashUS_cons_us, ih.2 hr]
        · intro hhead
          simp at hhead
      · refine ⟨?_, ?_⟩
        · rw [squashUS_cons_ne _ _ hc, ih.1]
        · intro _
          rw [squashTail_cons_ne _ _ hc, ih.1]

theorem collapseLoop_eq_squash (s : Str) : collapseLoop s = squashUS s := by
  by_cases h : containsSub s "__".toList = true
  · rw [collapseLoop, dif_pos h]
    have hst : ['_', '_'] <:+: s := by
      simpa [containsSub] using h
    have ih := collapseLoop_eq_squash (replaceDoubleUS s)
    rw [ih, (squash_replaceDouble s).1]
  · rw [collapseLoop, dif_neg h]
    have hni : ¬ (['_', '_'] <:+: s) := by
      simpa [containsSub] using h
    exact ((squash_eq_self_of_noDouble s hni).1).symm
termination_by s.length
decreasing_by
  exact replaceDoubleUS_length_lt s hst

/-- `strings.Trim(name, "_")`: remove leading and trailing underscores. -/
def trimUnderscores (s : Str) : Str :=
  ((s.dropWhile (fun c => c = '_')).reverse.dropWhile (fun c => c = '_')).reverse

/-- `sanitizeName` (openapi generator), with the collapse loop in its
structural `squashUS` form (see `sanitizeName_eq_goLoop`). -/
def sanitizeName (s : Str) : Str :=
  trimUnderscores (squashUS (sanitizeReplace (lowerStr s)))

/-- `sanitizeName` with the collapse pass written as the literal Go loop. -/
def sanitizeNameLoop (s : Str) : Str :=
  trimUnderscores (collapseLoop (sanitizeReplace (lowerStr s)))

theorem sanitizeName_eq_goLoop (s : Str) : sanitizeName s = sanitizeNameLoop s := by
  unfold sanitizeName sanitizeNameLoop
  rw [collapseLoop_eq_squash]

/-! ## OpenAPI tool generator
Embedded from the openapi `ToolGenerator` (`Generate`, `generateToolName`,
`generateInputSchema`, `generateOutputSchema`, `convertSchemaRef`,
`generateInvocationDetails`, `uniqueStrings`).

Pointer structure of the kin-openapi document is kept where the code
branches on it: an `OARef` is a `*openapi3.SchemaRef` that is a nil
pointer (`null`), a ref whose `Value` is nil (`valueNil`), or a ref with a
schema.  Go maps inside the document (`Properties`, `Content`,
`Responses`) are association lists in their stored order; map *lookups*
(`Content.Get`, `responses.Map()[code]`) are order-independent, so they
read the stored list.  Every place where the generator *ranges* a Go map —
whose range order Go randomizes per run — is an explicit parameter:

* `doc.Paths.Map()` / `pathItem.Operations()`: the generator is a function
  of the entry list `(path, method, operation)` in iteration order;
* the `responses.Map()` range in `generateOutputSchema`'s 2xx fallback:
  each run entry carries the linearization (a permutation of the stored
  responses map) that this range traverses;
* the request body `Content` range in `generateInvocationDetails`'
  non-JSON fallback: each run entry carries its linearization too.

One run of `Generate` corresponds to one choice of all these orders.
`determineHostAndBasePathFromServers` resolves the ordered `servers`
slice through `net/url` (an external library, not modelled); it is a
function of the document, so `host`/`basePath` are parameters here. -/

mutual
/-- `openapi3.Schema` (the fields the generator reads). -/
inductive OASchema where
  | mk (types : List Str) (format : Str) (enumVals : List Str)
       (required : List Str) (properties : OAProps) (items : OARef)
/-- The `Properties` map of a schema, in stored order. -/
inductive OAProps where
  | nil
  | cons (name : Str) (ref : OARef) (rest : OAProps)
/-- `*openapi3.SchemaRef`: nil pointer, ref with nil `Value`, or schema. -/
inductive OARef where
  | null
  | valueNil
  | value (s : OASchema)
end

/-- The first declared type of a schema (`(*schema.Type)[0]`, or empty). -/
def oaSchemaType : OASchema → Str
  | .mk types _ _ _ _ _ => match types with | [] => [] | t :: _ => t

mutual
/-- `convertSchemaRef`: nil ref or nil value → empty object schema;
otherwise convert the schema.  (All error returns of the Go function only
propagate errors of recursive calls; no base case fails, so the
conversion is total.) -/
def convertSchemaRef : OARef → JSONSchemaProps
  | .null => basicSchema "object".toList
  | .valueNil => basicSchema "object".toList
  | .value s => convertSchema s

/-- The body of `convertSchemaRef` on a present schema: take the first
declared type (warning on unions), then the Go switch — `object` converts
properties (skipping nil refs) and copies `required`; `array` converts
`Items` when the ref is non-nil; primitives pass through; empty type
stays empty; anything else falls back to `string`. -/
def convertSchema : OASchema → JSONSchemaProps
  | .mk types format enumVals required properties items =>
      let schemaType : Str := match types with | [] => [] | t :: _ => t
      if schemaType = "object".toList then
        JSONSchemaProps.mk schemaType (convertProps properties) required none
          format enumVals
      else if schemaType = "array".toList then
        (match items with
         | .null => JSONSchemaProps.mk schemaType [] [] none format enumVals
         | .valueNil =>
             JSONSchemaProps.mk schemaType [] []
               (some (convertSchemaRef OARef.valueNil)) format enumVals
         | .value s =>
             JSONSchemaProps.mk schemaType [] [] (some (convertSchema s))
               format enumVals)
      else if schemaType = "string".toList ∨ schemaType = "number".toList ∨
          schemaType = "integer".toList ∨ schemaType = "boolean".toList then
        JSONSchemaProps.mk schemaType [] [] none format enumVals
      else if schemaType = [] then
        JSONSchemaProps.mk [] [] [] none format enumVals
      else
        JSONSchemaProps.mk "string".toList [] [] none format enumVals

/-- The property loop of the `object` case: nil property refs are skipped. -/
def convertProps : OAProps → List (Str × JSONSchemaProps)
  | .nil => []
  | .cons name r rest =>
      match r with
      | .null => convertProps rest
      | .valueNil => (name, convertSchemaRef OARef.valueNil) :: convertProps rest
      | .value s => (name, convertSchema s) :: convertProps rest
end

/-- `openapi3.MediaType` (its schema ref). -/
structure OAMediaType where
  schema : OARef

/-- `openapi3.Parameter` (nil refs/values are the `none`s of the
surrounding list). -/
structure OAParam where
  name : Str
  paramIn : Str
  required : Bool
  schema : OARef

/-- `openapi3.RequestBody` behind non-nil ref/value/content: the `Content`
map in stored order, and `Required`. -/
structure OARequestBody where
  content : List (Str × OAMediaType)
  required : Bool

/-- `openapi3.Response` behind a non-nil ref (its `Content` map); the
association value is `none` when the ref's `Value` is nil. -/
structure OAResponse where
  content : List (Str × OAMediaType)

/-- `openapi3.Operation` (the fields the generator reads). -/
structure OAOperation where
  operationId : Str
  summary : Str
  description : Str
  parameters : List (Option OAParam)
  requestBody : Option OARequestBody
  responses : List (Str × Option OAResponse)

/-- `strings.HasPrefix`. -/
def hasPrefix (s pre : Str) : Bool := decide (pre <+: s)

/-- `strings.Trim(s, string-of-c)`. -/
def trimCharBoth (c : Char) (s : Str) : Str :=
  ((s.dropWhile (· = c)).reverse.dropWhile (· = c)).reverse

/-- `strings.Join(parts, string-of-c)`. -/
def joinSep (c : Char) : List Str → Str
  | [] => []
  | [x] => x
  | x :: y :: rest => x ++ c :: joinSep c (y :: rest)

/-- `strings.ToUpper` (ASCII). -/
def upperStr (s : Str) : Str := s.map Char.toUpper

/-- `generateToolName`: `{namespace}_{sanitized operationId}`, falling back
to namespace, lower-cased method and the sanitized non-placeholder path
parts joined by `_`. -/
def generateToolName (ns path method : Str) (op : OAOperation) : Str :=
  if op.operationId ≠ [] then ns ++ '_' :: sanitizeName op.operationId
  else
    let pathParts := splitOnChar '/' (trimCharBoth '/' path)
    let keptParts := pathParts.filterMap (fun part =>
      if !(hasPrefix part ['{']) && !(hasSuffix part ['}']) then
        some (sanitizeName part)
      else none)
    joinSep '_' (ns :: lowerStr method :: keptParts)

/-- The parameter loop of `generateInputSchema`: skip nil refs/values and
schema-less parameters, keep only query and path parameters, collecting
(property, required-marker) in parameter order.  (The Go map write
`props[param.Name]` is modelled as an ordered association list; duplicate
parameter names, which would overwrite, do not occur in the documents the
claims quantify over.) -/
def oaInputParams : List (Option OAParam) → List (Str × JSONSchemaProps) × List Str
  | [] => ([], [])
  | none :: rest => oaInputParams rest
  | some p :: rest =>
      let tail := oaInputParams rest
      match p.schema with
      | OARef.value s =>
          if p.paramIn = "query".toList ∨ p.paramIn = "path".toList then
            ((p.name, convertSchema s) :: tail.1,
             if p.required then p.name :: tail.2 else tail.2)
          else tail
      | _ => tail

/-- The body-property merge: on a name collision the parameter wins (a
warning is logged, the body property is dropped); fresh names are added
to the map. -/
def mergeBodyProps (props : List (Str × JSONSchemaProps)) :
    List (Str × JSONSchemaProps) → List (Str × JSONSchemaProps)
  | [] => props
  | (n, sch) :: rest =>
      if (mapLookup props n).isSome then mergeBodyProps props rest
      else mergeBodyProps (props ++ [(n, sch)]) rest

/-- `uniqueStrings`: drop duplicates, keeping first occurrences in order. -/
def uniqueStringsAux (seen : List Str) : List Str → List Str
  | [] => []
  | v :: rest =>
      if seen.contains v then uniqueStringsAux seen rest
      else v :: uniqueStringsAux (v :: seen) rest

/-- `uniqueStrings` (openapi generator helper). -/
def uniqueStrings (input : List Str) : List Str := uniqueStringsAux [] input

/-- `generateInputSchema`: parameters plus the `application/json` request
body.  An object body has its top-level properties hoisted (parameter wins
on collision) and its `required` appended; a non-object body is exposed
under the reserved name `requestBody`, failing when that name is already
taken by a parameter.  (`bodySchema.Properties != nil` always holds for a
converted object schema — the conversion `make`s the map — so the Go
condition reduces to the type check.)  The result is always rooted at
`type: object` with a deduplicated `required`. -/
def oaGenInputSchema (params : List (Option OAParam))
    (requestBody : Option OARequestBody) : Except Str JSONSchemaProps :=
  let pr := oaInputParams params
  let props := pr.1
  let required := pr.2
  match requestBody with
  | none =>
      Except.ok (JSONSchemaProps.mk "object".toList props
        (uniqueStrings required) none [] [])
  | some rb =>
      match mapLookup rb.content "application/json".toList with
      | some mt =>
          match mt.schema with
          | OARef.value s =>
              let bodySchema := convertSchema s
              if bodySchema.type = "object".toList then
                Except.ok (JSONSchemaProps.mk "object".toList
                  (mergeBodyProps props bodySchema.properties)
                  (uniqueStrings (required ++ bodySchema.required)) none [] [])
              else if (mapLookup props "requestBody".toList).isSome then
                Except.error ("cannot represent non-object request body when " ++
                  "requestBody key is already used by a parameter").toList
              else
                Except.ok (JSONSchemaProps.mk "object".toList
                  (props ++ [("requestBody".toList, bodySchema)])
                  (uniqueStrings (if rb.required then
                     required ++ ["requestBody".toList] else required))
                  none [] [])
          | _ =>
              Except.ok (JSONSchemaProps.mk "object".toList props
                (uniqueStrings required) none [] [])
      | none =>
          Except.ok (JSONSchemaProps.mk "object".toList props
            (uniqueStrings required) none [] [])

/-- `generateOutputSchema`: prefer responses `200`, then `201` (map
*lookups*, order-independent, on the stored map), then the first `2xx`
found by `for code, respRef := range responses.Map()` — a Go map range
whose order is randomized per run.  `rview` is the linearization that
range traverses in the run at hand: a permutation of the stored
`responses`.  `application/json` content only.  Total: its Go error
returns only propagate conversion errors, which cannot occur. -/
def oaGenOutputSchema (rview responses : List (Str × Option OAResponse)) :
    Option JSONSchemaProps :=
  let success : Option (Option OAResponse) :=
    match mapLookup responses "200".toList with
    | some r => some r
    | none =>
        match mapLookup responses "201".toList with
        | some r => some r
        | none => (rview.find? (fun p => hasPrefix p.1 "2".toList)).map Prod.snd
  match success with
  | none => none
  | some none => none
  | some (some resp) =>
      match mapLookup resp.content "application/json".toList with
      | none => none
      | some mt =>
          match mt.schema with
          | OARef.value s => some (convertSchema s)
          | _ => none

/-- The parameter-name extraction of `generateInvocationDetails` (path and
query names in parameter order; header/cookie parameters only logged). -/
def oaParamNames : List (Option OAParam) → List Str × List Str
  | [] => ([], [])
  | none :: rest => oaParamNames rest
  | some p :: rest =>
      let tail := oaParamNames rest
      if p.paramIn = "path".toList then (p.name :: tail.1, tail.2)
      else if p.paramIn = "query".toList then (tail.1, p.name :: tail.2)
      else tail

/-- The non-JSON fallback of `generateInvocationDetails`: the loop
`for contentType := range Content { firstContentType = contentType; break }`
takes the first key of the `Content` map range — a Go map range whose
order is randomized per run.  `cview` is the linearization that range
traverses in the run at hand (a permutation of the stored map); its head
key becomes the content type with `BodyParam = requestBody`, and an empty
map clears both. -/
def oaFallbackBody (cview : List (Str × OAMediaType)) : Str × Str :=
  match cview with
  | [] => ([], [])
  | (ct, _) :: _ => ("requestBody".toList, ct)

/-- The `Content` map the details fallback ranges: the request body's map,
empty when no request body is declared (the fallback is not consulted
then, so an empty linearization is the faithful stand-in). -/
def oaContentOf (op : OAOperation) : List (Str × OAMediaType) :=
  match op.requestBody with
  | none => []
  | some rb => rb.content

/-- `generateInvocationDetails`: HTTP transport, host/basePath, upper-cased
method, path, parameter names by location, and the body-parameter /
content-type determination; `cview` is the run's linearization of the
request body `Content` map, consumed by the non-JSON fallback. -/
def oaGenInvocationDetails (host basePath path method : Str)
    (cview : List (Str × OAMediaType)) (op : OAOperation) :
    InvocationDetails :=
  let names := oaParamNames op.parameters
  let bodyCT : Str × Str :=
    match op.requestBody with
    | none => ([], [])
    | some rb =>
        match mapLookup rb.content "application/json".toList with
        | some mt =>
            match mt.schema with
            | OARef.value s =>
                (if oaSchemaType s = "object".toList then []
                 else "requestBody".toList,
                 "application/json".toList)
            | _ => oaFallbackBody cview
        | none => oaFallbackBody cview
  ⟨"http".toList, host, basePath, upperStr method, path,
   names.1, names.2, [], bodyCT.1, [], [], [], [], [], [], bodyCT.2⟩

/-- One `(path, method, operation)` entry of `Generate`'s double loop,
paired with the run's randomized linearizations of the two inner maps
ranged while processing it: the operation's responses map (the 2xx
fallback of `generateOutputSchema`) and its request body `Content` map
(the non-JSON fallback of `generateInvocationDetails`).  A run supplies,
for each entry, linearizations that are permutations of `op.responses`
and of `oaContentOf op`. -/
abbrev OARunEntry :=
  (Str × Str × OAOperation) ×
    List (Str × Option OAResponse) × List (Str × OAMediaType)

/-- One iteration of `Generate`'s double loop over `(path, method,
operation)`: name, description fallbacks, input schema (skip the tool on
error), output schema, invocation details — the latter two reading the
run's inner-map linearizations.  (`generateOutputSchema` and
`generateInvocationDetails` cannot fail, so the Go append-then-pop on a
details error is the plain success path.) -/
def oaGenerateEntry (ns host basePath : Str)
    (x : OARunEntry) : Option (Tool × InvocationDetails) :=
  let path := x.1.1
  let method := x.1.2.1
  let op := x.1.2.2
  let toolName := generateToolName ns path method op
  let description :=
    if op.description ≠ [] then op.description
    else if op.summary ≠ [] then op.summary
    else "Executes ".toList ++ method ++ ' ' :: path
  match oaGenInputSchema op.parameters op.requestBody with
  | Except.error _ => none
  | Except.ok inputSchema =>
      some (⟨toolName, description, inputSchema,
             oaGenOutputSchema x.2.1 op.responses⟩,
            oaGenInvocationDetails host basePath path method x.2.2 op)

/-- The double loop of `Generate`, in the given entry iteration order. -/
def oaGenerateEntries (ns host basePath : Str) :
    List OARunEntry → List Tool × List InvocationDetails
  | [] => ([], [])
  | e :: rest =>
      let tail := oaGenerateEntries ns host basePath rest
      match oaGenerateEntry ns host basePath e with
      | none => tail
      | some (t, d) => (t :: tail.1, d :: tail.2)

/-- The namespace: the sanitized document title, defaulting to `openapi`. -/
def oaNamespace (title : Str) : Str :=
  let ns := sanitizeName title
  if ns = [] then "openapi".toList else ns

/-- `ToolGenerator.Generate` after host/basePath determination, as a
function of the document title and one run: an iteration order of its
`(path, method, operation)` entries, each carrying the run's
linearizations of the operation's two ranged inner maps. -/
def oaGenerate (title host basePath : Str)
    (entries : List OARunEntry) :
    List Tool × List InvocationDetails :=
  oaGenerateEntries (oaNamespace title) host basePath entries

theorem oaGenerateEntries_eq_filterMap (ns host bp : Str)
    (entries : List OARunEntry) :
    oaGenerateEntries ns host bp entries =
      ((entries.filterMap (oaGenerateEntry ns host bp)).map Prod.fst,
       (entries.filterMap (oaGenerateEntry ns host bp)).map Prod.snd) := by
  induction entries with
  | nil => rfl
  | cons e rest ih =>
      cases he : oaGenerateEntry ns host bp e with
      | none => simp [oaGenerateEntries, he, List.filterMap_cons, ih]
      | some td =>
          obtain ⟨t, d⟩ := td
          simp [oaGenerateEntries, he, List.filterMap_cons, ih]

/-- `List.find?` returns the head of the filtered list. -/
theorem find?_eq_head?_filter {α : Type} (p : α → Bool) (l : List α) :
    l.find? p = (l.filter p).head? := by
  induction l with
  | nil => rfl
  | cons a t ih =>
      simp only [List.find?, List.filter]
      cases h : p a
      · simp only [h, ih]
      · simp only [h, List.head?_cons]

/-- A permutation of a list of length at most one is that list itself. -/
theorem perm_eq_of_subsingleton {α : Type} {l l2 : List α}
    (h : l.Perm l2) (hc : l2.length ≤ 1) : l = l2 := by
  cases l2 with
  | nil => exact h.eq_nil
  | cons a t =>
      cases t with
      | nil => exact List.perm_singleton.mp h
      | cons b t2 => simp only [List.length_cons] at hc; omega

/-- With at most one satisfying element, `find?` is permutation-invariant. -/
theorem find?_perm_of_subsingleton {α : Type} (p : α → Bool) {l l2 : List α}
    (h : l.Perm l2) (hc : (l2.filter p).length ≤ 1) :
    l.find? p = l2.find? p := by
  rw [find?_eq_head?_filter, find?_eq_head?_filter,
      perm_eq_of_subsingleton (h.filter p) hc]

/-- Order-insensitivity of `generateOutputSchema` for one responses map:
the randomized 2xx-fallback range cannot matter — either the `200`/`201`
lookup succeeds (the fallback is skipped), or at most one response key has
prefix `2` (every range order finds that one, or none). -/
def respOrderInsensitive (responses : List (Str × Option OAResponse)) : Bool :=
  (mapLookup responses "200".toList).isSome ||
  (mapLookup responses "201".toList).isSome ||
  decide ((responses.filter (fun p => hasPrefix p.1 "2".toList)).length ≤ 1)

/-- Order-insensitivity of `generateInvocationDetails` for one operation:
the randomized `Content` range of the non-JSON fallback cannot matter —
either an `application/json` media type with a present schema exists (the
fallback is skipped), or the `Content` map has at most one entry. -/
def contentOrderInsensitive (op : OAOperation) : Bool :=
  match op.requestBody with
  | none => true
  | some rb =>
      (match mapLookup rb.content "application/json".toList with
       | some mt =>
           match mt.schema with
           | OARef.value _ => true
           | _ => false
       | none => false) ||
      decide (rb.content.length ≤ 1)

/-- Under the insensitivity condition, `generateOutputSchema` does not
depend on the run's responses-range linearization. -/
theorem oaGenOutputSchema_view_invariant
    (rv responses : List (Str × Option OAResponse))
    (h : rv.Perm responses) (hins : respOrderInsensitive responses = true) :
    oaGenOutputSchema rv responses = oaGenOutputSchema responses responses := by
  cases h200 : mapLookup responses "200".toList with
  | some r => unfold oaGenOutputSchema; rw [h200]
  | none =>
      cases h201 : mapLookup responses "201".toList with
      | some r => unfold oaGenOutputSchema; rw [h200, h201]
      | none =>
          have hle :
              (responses.filter (fun p => hasPrefix p.1 "2".toList)).length
                ≤ 1 := by
            unfold respOrderInsensitive at hins
            rw [h200, h201] at hins
            simpa using hins
          unfold oaGenOutputSchema
          rw [h200, h201, find?_perm_of_subsingleton _ h hle]

/-- Under the insensitivity condition, `generateInvocationDetails` does
not depend on the run's `Content`-range linearization. -/
theorem oaGenInvocationDetails_view_invariant (host bp path method : Str)
    (cv : List (Str × OAMediaType)) (op : OAOperation)
    (h : cv.Perm (oaContentOf op))
    (hins : contentOrderInsensitive op = true) :
    oaGenInvocationDetails host bp path method cv op =
      oaGenInvocationDetails host bp path method (oaContentOf op) op := by
  cases hrb : op.requestBody with
  | none => simp only [oaGenInvocationDetails, hrb]
  | some rb =>
      have hco : oaContentOf op = rb.content := by
        unfold oaContentOf; rw [hrb]
      cases hj : mapLookup rb.content "application/json".toList with
      | some mt =>
          cases hs : mt.schema with
          | value s => simp only [oaGenInvocationDetails, hrb, hj, hs]
          | null =>
              have hcve : cv = rb.content := by
                apply perm_eq_of_subsingleton (hco ▸ h)
                simp only [contentOrderInsensitive, hrb, hj, hs,
                  Bool.false_or, decide_eq_true_eq] at hins
                exact hins
              rw [hcve, hco]
          | valueNil =>
              have hcve : cv = rb.content := by
                apply perm_eq_of_subsingleton (hco ▸ h)
                simp only [contentOrderInsensitive, hrb, hj, hs,
                  Bool.false_or, decide_eq_true_eq] at hins
                exact hins
              rw [hcve, hco]
      | none =>
          have hcve : cv = rb.content := by
            apply perm_eq_of_subsingleton (hco ▸ h)
            simp only [contentOrderInsensitive, hrb, hj,
              Bool.false_or, decide_eq_true_eq] at hins
            exact hins
          rw [hcve, hco]

/-- The canonical run views of an entry: both inner maps linearized in
stored order. -/
def oaCanonEntry (e : Str × Str × OAOperation) : OARunEntry :=
  (e, e.2.2.responses, oaContentOf e.2.2)

/-- An entry's contribution is view-independent when its operation is
fallback-order-insensitive. -/
theorem oaGenerateEntry_view_invariant (ns host bp : Str) (x : OARunEntry)
    (hres : x.2.1.Perm x.1.2.2.responses)
    (hcon : x.2.2.Perm (oaContentOf x.1.2.2))
    (hri : respOrderInsensitive x.1.2.2.responses = true)
    (hci : contentOrderInsensitive x.1.2.2 = true) :
    oaGenerateEntry ns host bp x =
      oaGenerateEntry ns host bp (oaCanonEntry x.1) := by
  unfold oaGenerateEntry
  dsimp only [oaCanonEntry]
  rw [oaGenOutputSchema_view_invariant x.2.1 x.1.2.2.responses hres hri,
      oaGenInvocationDetails_view_invariant host bp x.1.1 x.1.2.1 x.2.2
        x.1.2.2 hcon hci]

/-- Over a run whose every operation is fallback-order-insensitive, the
generated pairs are those of the canonical run of the underlying entry
list. -/
theorem oaGenerateEntries_view_invariant (ns host bp : Str)
    (xs : List OARunEntry)
    (hres : ∀ x ∈ xs, x.2.1.Perm x.1.2.2.responses)
    (hcon : ∀ x ∈ xs, x.2.2.Perm (oaContentOf x.1.2.2))
    (hins : ∀ x ∈ xs, respOrderInsensitive x.1.2.2.responses = true ∧
        contentOrderInsensitive x.1.2.2 = true) :
    xs.filterMap (oaGenerateEntry ns host bp) =
      (xs.map Prod.fst).filterMap
        (fun e => oaGenerateEntry ns host bp (oaCanonEntry e)) := by
  rw [List.filterMap_map]
  exact List.filterMap_congr (fun x hx =>
    oaGenerateEntry_view_invariant ns host bp x (hres x hx) (hcon x hx)
      (hins x hx).1 (hins x hx).2)

/-- A minimal operation with only an operation id. -/
def c2op (oid : Str) : OAOperation := ⟨oid, [], [], [], none, []⟩

/-- First entry of the C2 counterexample document. -/
def c2ea : Str × Str × OAOperation :=
  ("/a".toList, "get".toList, c2op "getA".toList)

/-- Second entry of the C2 counterexample document. -/
def c2eb : Str × Str × OAOperation :=
  ("/b".toList, "get".toList, c2op "getB".toList)

/-- Run entry for `c2ea`: no responses and no request body, so the empty
inner-map linearizations are the only (faithful) ones. -/
def c2xa : OARunEntry := (c2ea, [], [])

/-- Run entry for `c2eb`. -/
def c2xb : OARunEntry := (c2eb, [], [])

/-- An `application/json` media type whose schema has the given primitive
type. -/
def c2mt (t : Str) : OAMediaType :=
  ⟨OARef.value (OASchema.mk [t] [] [] [] OAProps.nil OARef.null)⟩

/-- A response with an `application/json` schema of the given primitive
type. -/
def c2resp (t : Str) : Option OAResponse :=
  some ⟨[("application/json".toList, c2mt t)]⟩

/-- A stored responses map with two distinguishable `2xx` responses and no
`200`/`201`: the output-schema fallback must range the randomized map. -/
def c2responses : List (Str × Option OAResponse) :=
  [("202".toList, c2resp "integer".toList),
   ("203".toList, c2resp "boolean".toList)]

/-- The fallback-sensitive operation. -/
def c2opF : OAOperation := ⟨"getF".toList, [], [], [], none, c2responses⟩

/-- Its document entry. -/
def c2ef : Str × Str × OAOperation := ("/f".toList, "get".toList, c2opF)

/-- Run 1 of the fallback scenario: the responses map ranged in stored
order. -/
def c2xf1 : OARunEntry := (c2ef, c2responses, [])

/-- Run 2 of the fallback scenario: the same responses map ranged in the
reversed order — an equally possible Go map range order. -/
def c2xf2 : OARunEntry := (c2ef, c2responses.reverse, [])

/-- Projection exposing a tool's output-schema root type. -/
def c2outType (t : Tool) : Option Str :=
  t.outputSchema.map JSONSchemaProps.type

/-- C2 (counterexample): two runs of `Generate` on the same parsed
document can differ.  (i) Emission order: `Generate` ranges
`doc.Paths.Map()` / `pathItem.Operations()`, whose order Go randomizes
per run; the two linearizations of a two-operation document yield the
same tools in different orders, so the runs do not emit identical lists.
(ii) Content: for an operation whose responses are `202`/`203` with
different schemas (no `200`/`201`), the 2xx fallback of
`generateOutputSchema` ranges the randomized responses map, and the two
range orders — both permutations of the stored map — yield tools with
different output schemas, so even the emitted multisets differ. -/
theorem c2_generator_nondet_cex :
    (([c2xa, c2xb].map Prod.fst).Perm ([c2xb, c2xa].map Prod.fst) ∧
     (oaGenerate "Store".toList "https://api.example.com".toList "/v1".toList
         [c2xa, c2xb]).1.map Tool.name =
       ["store_geta".toList, "store_getb".toList] ∧
     (oaGenerate "Store".toList "https://api.example.com".toList "/v1".toList
         [c2xb, c2xa]).1.map Tool.name =
       ["store_getb".toList, "store_geta".toList] ∧
     oaGenerate "Store".toList "https://api.example.com".toList "/v1".toList
         [c2xa, c2xb] ≠
       oaGenerate "Store".toList "https://api.example.com".toList "/v1".toList
         [c2xb, c2xa]) ∧
    (c2xf2.2.1.Perm c2opF.responses ∧
     (oaGenerate "Store".toList "https://api.example.com".toList "/v1".toList
         [c2xf1]).1.map c2outType = [some "integer".toList] ∧
     (oaGenerate "Store".toList "https://api.example.com".toList "/v1".toList
         [c2xf2]).1.map c2outType = [some "boolean".toList] ∧
     ¬ ((oaGenerate "Store".toList "https://api.example.com".toList
           "/v1".toList [c2xf1]).1.map c2outType).Perm
         ((oaGenerate "Store".toList "https://api.example.com".toList
           "/v1".toList [c2xf2]).1.map c2outType)) := by
  refine ⟨⟨List.Perm.swap _ _ _, ?_, ?_, ?_⟩,
          ⟨List.reverse_perm c2responses, ?_, ?_, ?_⟩⟩
  · decide
  · decide
  · intro h
    have hmap := congrArg (fun p => p.1.map Tool.name) h
    have h1 : (oaGenerate "Store".toList "https://api.example.com".toList
        "/v1".toList [c2xa, c2xb]).1.map Tool.name =
        ["store_geta".toList, "store_getb".toList] := by decide
    have h2 : (oaGenerate "Store".toList "https://api.example.com".toList
        "/v1".toList [c2xb, c2xa]).1.map Tool.name =
        ["store_getb".toList, "store_geta".toList] := by decide
    simp only [h1, h2] at hmap
    exact absurd hmap (by decide)
  · decide
  · decide
  · intro hp
    have h1 : (oaGenerate "Store".toList "https://api.example.com".toList
        "/v1".toList [c2xf1]).1.map c2outType =
        [some "integer".toList] := by decide
    have h2 : (oaGenerate "Store".toList "https://api.example.com".toList
        "/v1".toList [c2xf2]).1.map c2outType =
        [some "boolean".toList] := by decide
    rw [h1, h2] at hp
    exact absurd (List.perm_singleton.mp hp) (by decide)

/-- C2 (amended): `Generate` is a pure function of the parsed document and
of the per-run iteration orders of the Go maps it ranges, and its
nondeterminism goes beyond emission order — the randomized
`responses.Map()` range of the 2xx fallback and the randomized `Content`
range of the details fallback can change even the emitted multiset.  When
every operation is fallback-order-insensitive (a `200`/`201` response
present or at most one `2xx` response; an `application/json` body schema
present or at most one content entry), any two runs on the same parsed
document — entry lists that are permutations of each other, every entry
carrying inner-map linearizations that permute the stored maps — emit the
same tools and the same invocation details as multisets. -/
theorem c2_generator_deterministic_amended (title host basePath : Str)
    (xe1 xe2 : List OARunEntry)
    (hperm : (xe1.map Prod.fst).Perm (xe2.map Prod.fst))
    (hres1 : ∀ x ∈ xe1, x.2.1.Perm x.1.2.2.responses)
    (hcon1 : ∀ x ∈ xe1, x.2.2.Perm (oaContentOf x.1.2.2))
    (hres2 : ∀ x ∈ xe2, x.2.1.Perm x.1.2.2.responses)
    (hcon2 : ∀ x ∈ xe2, x.2.2.Perm (oaContentOf x.1.2.2))
    (hins : ∀ e ∈ xe1.map Prod.fst,
        respOrderInsensitive e.2.2.responses = true ∧
        contentOrderInsensitive e.2.2 = true) :
    (oaGenerate title host basePath xe1).1.Perm
      (oaGenerate title host basePath xe2).1 ∧
    (oaGenerate title host basePath xe1).2.Perm
      (oaGenerate title host basePath xe2).2 := by
  have hins1 : ∀ x ∈ xe1, respOrderInsensitive x.1.2.2.responses = true ∧
      contentOrderInsensitive x.1.2.2 = true :=
    fun x hx => hins x.1 (List.mem_map_of_mem _ hx)
  have hins2 : ∀ x ∈ xe2, respOrderInsensitive x.1.2.2.responses = true ∧
      contentOrderInsensitive x.1.2.2 = true :=
    fun x hx => hins x.1 (hperm.mem_iff.mpr (List.mem_map_of_mem _ hx))
  unfold oaGenerate
  rw [oaGenerateEntries_eq_filterMap, oaGenerateEntries_eq_filterMap,
      oaGenerateEntries_view_invariant _ _ _ _ hres1 hcon1 hins1,
      oaGenerateEntries_view_invariant _ _ _ _ hres2 hcon2 hins2]
  exact ⟨(hperm.filterMap _).map _, (hperm.filterMap _).map _⟩

theorem c2_generator_deterministic_amended_witness :
    (([c2xa, c2xb].map Prod.fst).Perm ([c2xb, c2xa].map Prod.fst)) ∧
    (oaGenerate "Store".toList "https://api.example.com".toList "/v1".toList
        [c2xa, c2xb]).1.Perm
      (oaGenerate "Store".toList "https://api.example.com".toList "/v1".toList
        [c2xb, c2xa]).1 := by
  refine ⟨List.Perm.swap _ _ _, ?_⟩
  refine (c2_generator_deterministic_amended "Store".toList
      "https://api.example.com".toList "/v1".toList [c2xa, c2xb] [c2xb, c2xa]
      (List.Perm.swap _ _ _) ?_ ?_ ?_ ?_ ?_).1
  · intro x hx
    rcases List.mem_cons.mp hx with rfl | hx2
    · exact List.Perm.nil
    · rcases List.mem_cons.mp hx2 with rfl | hx3
      · exact List.Perm.nil
      · exact absurd hx3 (List.not_mem_nil x)
  · intro x hx
    rcases List.mem_cons.mp hx with rfl | hx2
    · exact List.Perm.nil
    · rcases List.mem_cons.mp hx2 with rfl | hx3
      · exact List.Perm.nil
      · exact absurd hx3 (List.not_mem_nil x)
  · intro x hx
    rcases List.mem_cons.mp hx with rfl | hx2
    · exact List.Perm.nil
    · rcases List.mem_cons.mp hx2 with rfl | hx3
      · exact List.Perm.nil
      · exact absurd hx3 (List.not_mem_nil x)
  · intro x hx
    rcases List.mem_cons.mp hx with rfl | hx2
    · exact List.Perm.nil
    · rcases List.mem_cons.mp hx2 with rfl | hx3
      · exact List.Perm.nil
      · exact absurd hx3 (List.not_mem_nil x)
  · intro e he
    simp only [List.map_cons, List.map_nil, List.mem_cons,
      List.not_mem_nil, or_false] at he
    rcases he with rfl | rfl
    · exact ⟨by decide, by decide⟩
    · exact ⟨by decide, by decide⟩

/-! ## C7: every generated tool has a root `object` input schema -/

theorem convertProtoToJSONSchema_type (d : Option DescriptorProto) :
    (convertProtoToJSONSchema d).type = "object".toList := by
  cases d <;> rfl

theorem protoGenInputSchema_type (m : ProtoMethod) :
    (protoGenInputSchema m).type = "object".toList := by
  unfold protoGenInputSchema
  cases m.input with
  | mk fields => rfl

theorem oaGenInputSchema_type (params : List (Option OAParam))
    (rb : Option OARequestBody) (sch : JSONSchemaProps)
    (h : oaGenInputSchema params rb = Except.ok sch) :
    sch.type = "object".toList := by
  unfold oaGenInputSchema at h
  dsimp only [] at h
  split at h
  all_goals try split at h
  all_goals try split at h
  all_goals try split at h
  all_goals try split at h
  all_goals try (injection h with h1; rw [← h1]; rfl)
  all_goals exact absurd h (by simp)

theorem oaGenerateEntry_inputSchema_type (ns host bp : Str)
    (x : OARunEntry) (t : Tool) (d : InvocationDetails)
    (h : oaGenerateEntry ns host bp x = some (t, d)) :
    t.inputSchema.type = "object".toList := by
  unfold oaGenerateEntry at h
  dsimp only [] at h
  split at h
  · exact absurd h (by simp)
  · injection h with h1
    have ht : t = ⟨generateToolName ns x.1.1 x.1.2.1 x.1.2.2, _, _, _⟩ :=
      (congrArg Prod.fst h1).symm
    rw [ht]
    exact oaGenInputSchema_type _ _ _ (by assumption)

theorem oa_tools_type (title host bp : Str)
    (entries : List OARunEntry) :
    ∀ t ∈ (oaGenerate title host bp entries).1,
      t.inputSchema.type = "object".toList := by
  intro t ht
  unfold oaGenerate at ht
  rw [oaGenerateEntries_eq_filterMap] at ht
  simp only [List.mem_map] at ht
  rcases ht with ⟨⟨t', d'⟩, hmem, rfl⟩
  rcases List.mem_filterMap.mp hmem with ⟨e, _, he⟩
  exact oaGenerateEntry_inputSchema_type _ _ _ _ _ _ he

theorem grpc_tools_type (source : Str) (infos : List ServiceInfo) :
    ∀ t ∈ (grpcGenServices source infos).1,
      t.inputSchema.type = "object".toList := by
  induction infos with
  | nil => simp [grpcGenServices]
  | cons svc rest ih =>
      intro t ht
      simp only [grpcGenServices, List.mem_append] at ht
      rcases ht with h1 | h2
      · rw [grpcGenMethods_eq_filter] at h1
        simp only [List.mem_map] at h1
        rcases h1 with ⟨m, _, rfl⟩
        exact convertProtoToJSONSchema_type m.inputDescriptor
      · exact ih t h2

theorem proto_tools_type (server pkg : Str) (services : List ProtoService) :
    ∀ t ∈ (protoGenServices server pkg services).1,
      t.inputSchema.type = "object".toList := by
  induction services with
  | nil => simp [protoGenServices]
  | cons svc rest ih =>
      intro t ht
      simp only [protoGenServices, List.mem_append] at ht
      rcases ht with h1 | h2
      · rw [protoGenMethods_eq_map] at h1
        simp only [List.mem_map] at h1
        rcases h1 with ⟨m, _, rfl⟩
        exact protoGenInputSchema_type m
      · exact ih t h2

/-- C7 (confirmed): every tool emitted by the OpenAPI generator, the gRPC
reflection generator, or the standalone `.proto` generator carries an
input schema whose root type is `object`. -/
theorem c7_input_schema_root_object (title host basePath : Str)
    (entries : List OARunEntry)
    (source : Str) (infos : List ServiceInfo)
    (serverURL : Str) (file : ProtoFile)
    (tools3 : List Tool) (details3 : List InvocationDetails) :
    (∀ t ∈ (oaGenerate title host basePath entries).1,
       t.inputSchema.type = "object".toList) ∧
    (∀ t ∈ (generateFromServiceInfos source infos).1,
       t.inputSchema.type = "object".toList) ∧
    (protoGenerate serverURL file = Except.ok (tools3, details3) →
       ∀ t ∈ tools3, t.inputSchema.type = "object".toList) := by
  refine ⟨oa_tools_type title host basePath entries,
          grpc_tools_type source infos, ?_⟩
  intro hok t ht
  unfold protoGenerate at hok
  split at hok
  · exact absurd hok (by simp)
  · injection hok with h1
    have : tools3 = (protoGenServices serverURL file.pkg file.services).1 :=
      (congrArg Prod.fst h1).symm
    rw [this] at ht
    exact proto_tools_type serverURL file.pkg file.services t ht

/-- A concrete unary gRPC method used by the C7 witness. -/
def c7Method : MethodInfo :=
  ⟨"Say".toList, "pkg.Req".toList, "pkg.Resp".toList, false, false,
   some ⟨[⟨"sentence".toList, PFieldType.string, false⟩]⟩, none⟩

/-- The service containing `c7Method`. -/
def c7Service : ServiceInfo := ⟨"pkg.Svc".toList, [c7Method]⟩

theorem c7_input_schema_root_object_witness :
    ((grpcMethodTool "grpc://h".toList c7Service c7Method).1).inputSchema.type
      = "object".toList :=
  (c7_input_schema_root_object [] [] [] [] "grpc://h".toList [c7Service]
      [] ⟨[], []⟩ [] []).2.1 _ (by
    have heq : (generateFromServiceInfos "grpc://h".toList [c7Service]).1 =
        [(grpcMethodTool "grpc://h".toList c7Service c7Method).1] := rfl
    rw [heq]
    exact List.mem_singleton.mpr rfl)

/-! ## HTTP invoker
Embedded from `httpinvoker.Invoker.Invoke` up to the point where the HTTP
request is issued (claims concern the request that is sent).  Argument
values (`map[string]interface{}`) are a type parameter `V`; `fmt.Sprintf
("%v", v)` is the parameter `format`; `json.Marshal` of JSON-decoded tool
arguments cannot fail and is left symbolic in `RequestBody`.  The Go
`range params` map iteration becomes the association list's order (the
claims quantify over every order).  `url.Parse` of the host is an
external library call that cannot fail on the generator-produced hosts
and is not modelled; `path.Join` is modelled for the cleaned inputs the
generator produces (basePath without trailing slash, path starting with
`/`). -/

/-- The request body the invoker prepares: none, the JSON object over the
remaining parameters (complex body), the JSON encoding of a single
parameter (simple body), or its plain-text rendering. -/
inductive RequestBody (V : Type) where
  | none
  | jsonObj (fields : List (Str × V))
  | jsonValue (v : V)
  | text (s : Str)
deriving DecidableEq

/-- The outgoing HTTP request the invoker hands to the shared client. -/
structure RequestSpec (V : Type) where
  url : Str
  path : Str
  query : List (Str × Str)
  body : RequestBody V
  headers : List (Str × Str)
deriving DecidableEq

/-- `path.Join(basePath, httpPath)` for cleaned inputs. -/
def goPathJoin (a b : Str) : Str :=
  if a = [] then b
  else if b = [] then a
  else if hasPrefix b "/".toList then a ++ b
  else a ++ '/' :: b

/-- `strings.ReplaceAll(path, "{" + k + "}", value)` (leftmost,
non-overlapping). -/
def substPlaceholder (key rep : Str) : Str → Str
  | [] => []
  | c :: t =>
      if ('{' :: (key ++ ['}'])).isPrefixOf (c :: t) then
        rep ++ substPlaceholder key rep (t.drop (key.length + 1))
      else c :: substPlaceholder key rep t
termination_by s => s.length
decreasing_by
  · simp only [List.length_drop, List.length_cons]
    omega
  · simp only [List.length_cons]
    omega

/-- The path-parameter loop: an argument whose `{name}` placeholder occurs
in the (evolving) path is substituted and consumed; the rest are kept for
query/body use.  Returns the processed path and the remaining
parameters. -/
def substitutePathParams {V : Type} (format : V → Str) :
    List (Str × V) → Str → Str × List (Str × V)
  | [], path => (path, [])
  | (k, v) :: rest, path =>
      if containsSub path ('{' :: (k ++ ['}'])) then
        substitutePathParams format rest (substPlaceholder k (format v) path)
      else
        let tail := substitutePathParams format rest path
        (tail.1, (k, v) :: tail.2)

/-- The query split: remaining parameters named in `QueryParams` go to the
URL query, the rest become body candidates. -/
def splitQueryParams {V : Type} (queryParams : List Str) :
    List (Str × V) → List (Str × V) × List (Str × V)
  | [] => ([], [])
  | (k, v) :: rest =>
      let tail := splitQueryParams queryParams rest
      if queryParams.contains k then ((k, v) :: tail.1, tail.2)
      else (tail.1, (k, v) :: tail.2)

/-- `Invoker.Invoke` up to issuing the request: URL/path construction with
placeholder substitution, query separation, body composition by method /
`BodyParam` / `ContentType`, and header assembly.  (`url.Values.Encode`'s
key sorting is not modelled; the query is kept as entries.) -/
def invokeHTTP {V : Type} (format : V → Str) (details : InvocationDetails)
    (params : List (Str × V)) : Except Str (RequestSpec V) :=
  let fullPath := goPathJoin details.basePath details.httpPath
  let sub := substitutePathParams format params fullPath
  let processedPath := sub.1
  let remainingParams := sub.2
  let qsplit := splitQueryParams details.queryParams remainingParams
  let query := qsplit.1.map (fun kv => (kv.1, format kv.2))
  let bodyCandidateParams := qsplit.2
  let bodyRes : Except Str (RequestBody V) :=
    if details.httpMethod = "POST".toList ∨ details.httpMethod = "PUT".toList ∨
        details.httpMethod = "PATCH".toList then
      if details.bodyParam = [] then
        if bodyCandidateParams.isEmpty then Except.ok RequestBody.none
        else if details.contentType = "application/json".toList then
          Except.ok (RequestBody.jsonObj bodyCandidateParams)
        else
          Except.error ("cannot handle complex body for Content-Type: ".toList
            ++ details.contentType)
      else
        match mapLookup bodyCandidateParams details.bodyParam with
        | some v =>
            if details.contentType = "application/json".toList then
              Except.ok (RequestBody.jsonValue v)
            else Except.ok (RequestBody.text (format v))
        | none => Except.ok RequestBody.none
    else Except.ok RequestBody.none
  match bodyRes with
  | Except.error e => Except.error e
  | Except.ok body =>
      let hasBody : Bool := match body with
        | RequestBody.none => false
        | _ => true
      let headers :=
        (if hasBody ∧ details.contentType ≠ [] then
          [("Content-Type".toList, details.contentType)]
         else []) ++ details.headerParams
      Except.ok ⟨details.host ++ processedPath, processedPath, query, body, headers⟩

theorem splitQueryParams_eq_filter {V : Type} (qs : List Str)
    (l : List (Str × V)) :
    splitQueryParams qs l =
      (l.filter (fun kv => qs.contains kv.1),
       l.filter (fun kv => !qs.contains kv.1)) := by
  induction l with
  | nil => rfl
  | cons kv rest ih =>
      obtain ⟨k, v⟩ := kv
      by_cases hk : k ∈ qs
      · simp [splitQueryParams, List.filter_cons, ih, hk]
      · simp [splitQueryParams, List.filter_cons, ih, hk]

theorem braceFree_append_eq (p key r1 r2 : Str)
    (hp : '}' ∉ p) (hkey : '}' ∉ key)
    (h : p ++ '}' :: r1 = key ++ '}' :: r2) : p = key := by
  induction p generalizing key with
  | nil =>
      cases key with
      | nil => rfl
      | cons k key' =>
          exfalso
          injection h with h1 _
          exact hkey (h1 ▸ List.mem_cons_self k key')
  | cons a p' ih =>
      cases key with
      | nil =>
          exfalso
          injection h with h1 _
          exact hp (h1 ▸ List.mem_cons_self a p')
      | cons k key' =>
          injection h with h1 h2
          have hp' : '}' ∉ p' := fun hm => hp (List.mem_cons_of_mem _ hm)
          have hkey' : '}' ∉ key' := fun hm => hkey (List.mem_cons_of_mem _ hm)
          rw [h1, ih key' hp' hkey' h2]

theorem infix_skip_braceFreeHead (x : Str) :
    ∀ (w rest : Str), '{' ∉ w → ('{' :: x) <:+: w ++ rest →
      ('{' :: x) <:+: rest := by
  intro w
  induction w with
  | nil => intro rest _ h; simpa using h
  | cons a w' ih =>
      intro rest hw h
      rcases List.infix_cons_iff.mp h with hpre | hinf
      · exfalso
        rcases hpre with ⟨r, hr⟩
        injection hr with h1 _
        exact hw (h1 ▸ List.mem_cons_self a w')
      · exact ih rest (fun hm => hw (List.mem_cons_of_mem _ hm)) hinf

theorem substPrefix_preserved (key rep : Str) :
    ∀ (u t : Str), '{' ∉ u → u <+: t →
      u <+: substPlaceholder key rep t := by
  intro u
  induction u with
  | nil => intro t _ _; exact List.nil_prefix
  | cons a u' ih =>
      intro t hu hpre
      cases t with
      | nil => exact absurd (List.prefix_nil.mp hpre) (by simp)
      | cons b t' =>
          rcases hpre with ⟨r, hr⟩
          injection hr with h1 h2
          subst h1
          have ha : a ≠ '{' := fun hh => hu (hh ▸ List.mem_cons_self a u')
          have hnm : ¬ (('{' :: (key ++ ['}'])).isPrefixOf (a :: t') = true) := by
            intro hc
            rcases List.isPrefixOf_iff_prefix.mp hc with ⟨r2, hr2⟩
            injection hr2 with hc1 _
            exact ha hc1.symm
          rw [substPlaceholder, if_neg hnm]
          have hu' : '{' ∉ u' := fun hm => hu (List.mem_cons_of_mem _ hm)
          rcases ih t' hu' ⟨r, h2⟩ with ⟨r3, hr3⟩
          exact ⟨r3, by simp [hr3]⟩

theorem infix_append_left_of {l r : Str} (w : Str) (h : l <:+: r) :
    l <:+: w ++ r := by
  rcases h with ⟨u, v, rfl⟩
  exact ⟨w ++ u, v, by simp⟩

theorem substPlaceholder_preserves_occurrence (key rep p : Str)
    (hkb : '{' ∉ key ∧ '}' ∉ key) (hpb : '{' ∉ p ∧ '}' ∉ p) (hne : p ≠ key)
    (s : Str) (hs : ('{' :: p ++ ['}']) <:+: s) :
    ('{' :: p ++ ['}']) <:+: substPlaceholder key rep s := by
  match s with
  | [] =>
      have hlen := hs.length_le
      simp at hlen
  | c :: t =>
      by_cases hmatch : ('{' :: (key ++ ['}'])).isPrefixOf (c :: t) = true
      · rcases List.isPrefixOf_iff_prefix.mp hmatch with ⟨rest, hrest⟩
        injection hrest with hc ht0
        have ht : (key ++ ['}']) ++ rest = t := ht0
        rw [substPlaceholder, if_pos hmatch]
        have hdrop : t.drop (key.length + 1) = rest := by
          rw [← ht]
          exact List.drop_left' (by simp)
        rw [hdrop]
        rcases List.infix_cons_iff.mp hs with hqpre | hqinf
        · exfalso
          rcases hqpre with ⟨r2, hr2⟩
          injection hr2 with hc2 hr2'
          rw [← ht] at hr2'
          have : p = key := by
            apply braceFree_append_eq p key r2 rest hpb.2 hkb.2
            simpa [List.append_assoc] using hr2'
          exact hne this
        · have hq2 : ('{' :: p ++ ['}']) <:+: rest := by
            apply infix_skip_braceFreeHead (p ++ ['}']) (key ++ ['}']) rest
            · intro hm
              rcases List.mem_append.mp hm with hm1 | hm2
              · exact hkb.1 hm1
              · simp at hm2
            · rw [ht]
              exact hqinf
          have hr : rest.length < t.length + 1 := by
            have hlen2 : t.length = key.length + 1 + rest.length := by
              rw [← ht]
              simp only [List.length_append, List.length_cons, List.length_nil]
            omega
          have ih := substPlaceholder_preserves_occurrence key rep p hkb hpb hne
            rest hq2
          exact infix_append_left_of rep ih
      · rw [substPlaceholder, if_neg hmatch]
        rcases List.infix_cons_iff.mp hs with hqpre | hqinf
        · rcases hqpre with ⟨r2, hr2⟩
          injection hr2 with hc hr2'
          have hpt : (p ++ ['}']) <+: t := ⟨r2, hr2'⟩
          have hfree : '{' ∉ p ++ ['}'] := by
            intro hm
            rcases List.mem_append.mp hm with hm1 | hm2
            · exact hpb.1 hm1
            · simp at hm2
          have hsub := substPrefix_preserved key rep (p ++ ['}']) t hfree hpt
          rcases hsub with ⟨r3, hr3⟩
          have : ('{' :: p ++ ['}']) <+: c :: substPlaceholder key rep t := by
            rw [← hc]
            exact ⟨r3, by simp [hr3]⟩
          exact this.isInfix
        · exact List.infix_cons
            (substPlaceholder_preserves_occurrence key rep p hkb hpb hne t hqinf)
termination_by s.length
decreasing_by
  · exact hr
  · simp [List.length_cons]

theorem substitutePathParams_preserves_occurrence {V : Type} (format : V → Str)
    (p : Str) (hpb : '{' ∉ p ∧ '}' ∉ p) :
    ∀ (params : List (Str × V)) (path : Str),
      (∀ kv ∈ params, '{' ∉ kv.1 ∧ '}' ∉ kv.1) →
      p ∉ params.map Prod.fst →
      ('{' :: p ++ ['}']) <:+: path →
      ('{' :: p ++ ['}']) <:+: (substitutePathParams format params path).1 := by
  intro params
  induction params with
  | nil => intro path _ _ h; exact h
  | cons kv rest ih =>
      intro path hkeys hnot h
      obtain ⟨k, v⟩ := kv
      have hkb := hkeys (k, v) (List.mem_cons_self _ _)
      have hne : p ≠ k := by
        intro hh
        apply hnot
        rw [hh, List.map_cons]
        exact List.mem_cons_self _ _
      have hkeys' : ∀ kv ∈ rest, '{' ∉ kv.1 ∧ '}' ∉ kv.1 :=
        fun kv hm => hkeys kv (List.mem_cons_of_mem _ hm)
      have hnot' : p ∉ rest.map Prod.fst := by
        intro hm
        apply hnot
        rw [List.map_cons]
        exact List.mem_cons_of_mem _ hm
      by_cases hc : containsSub path ('{' :: (k ++ ['}'])) = true
      · rw [substitutePathParams, if_pos hc]
        exact ih (substPlaceholder k (format v) path) hkeys' hnot'
          (substPlaceholder_preserves_occurrence k (format v) p hkb hpb hne path h)
      · rw [substitutePathParams, if_neg hc]
        exact ih path hkeys' hnot' h

/-- The concrete details of the C5 counterexample: `POST /things` with no
declared request-body schema, so the generator leaves `BodyParam` and
`ContentType` empty. -/
def c5CexDetails : InvocationDetails :=
  ⟨"http".toList, "http://api".toList, [], "POST".toList, "/things".toList,
   [], [], [], [], [], [], [], [], [], [], []⟩

/-- C5 (counterexample): a POST invocation with `bodyParam == ""`, an empty
`ContentType`, and one argument left for the body does not send the JSON
object over that argument — the invoker rejects the call with
`cannot handle complex body for Content-Type: ` and no request is
issued. -/
theorem c5_body_composition_cex :
    (match invokeHTTP (fun (s : Str) => s) c5CexDetails
        [("a".toList, "1".toList)] with
     | Except.error e => some e
     | Except.ok _ => none) =
      some ("cannot handle complex body for Content-Type: ".toList) := by
  decide

/-- C5 (amended): for POST/PUT/PATCH with `bodyParam == ""` and content
type `application/json`, the invocation succeeds, and the request body is
the JSON object over exactly the arguments neither consumed by `{name}`
path substitution nor named in `queryParams` — with no body at all when
that set is empty; arguments substituted into the path are removed from
the body pool, and a `{name}` placeholder whose name (brace-free, like
all argument keys) matches no argument passes through into the final path
as literal text without raising an error.  (With a non-JSON content type
and a non-empty body pool the invocation fails instead, see the
counterexample.) -/
theorem c5_http_body_amended {V : Type} (format : V → Str)
    (details : InvocationDetails) (params : List (Str × V))
    (hm : details.httpMethod = "POST".toList ∨
          details.httpMethod = "PUT".toList ∨
          details.httpMethod = "PATCH".toList)
    (hbp : details.bodyParam = [])
    (hct : details.contentType = "application/json".toList) :
    ∃ spec : RequestSpec V,
      invokeHTTP format details params = Except.ok spec ∧
      spec.path = (substitutePathParams format params
          (goPathJoin details.basePath details.httpPath)).1 ∧
      spec.body =
        (if ((substitutePathParams format params
              (goPathJoin details.basePath details.httpPath)).2.filter
              (fun kv => !details.queryParams.contains kv.1)).isEmpty then
           RequestBody.none
         else
           RequestBody.jsonObj
             ((substitutePathParams format params
               (goPathJoin details.basePath details.httpPath)).2.filter
               (fun kv => !details.queryParams.contains kv.1))) ∧
      (∀ p : Str, '{' ∉ p ∧ '}' ∉ p →
        (∀ kv ∈ params, '{' ∉ kv.1 ∧ '}' ∉ kv.1) →
        p ∉ params.map Prod.fst →
        ('{' :: p ++ ['}']) <:+: goPathJoin details.basePath details.httpPath →
        ('{' :: p ++ ['}']) <:+: spec.path) := by
  unfold invokeHTTP
  dsimp only []
  rw [if_pos hm, if_pos hbp, splitQueryParams_eq_filter]
  dsimp only []
  by_cases hempty : ((substitutePathParams format params
      (goPathJoin details.basePath details.httpPath)).2.filter
      (fun kv => !details.queryParams.contains kv.1)).isEmpty = true
  · rw [if_pos hempty]
    refine ⟨_, rfl, rfl, ?_, ?_⟩
    · rw [if_pos hempty]
    · intro p hpb hkeys hnot hoccurs
      exact substitutePathParams_preserves_occurrence format p hpb params _ hkeys
        hnot hoccurs
  · rw [if_neg hempty, if_pos hct]
    refine ⟨_, rfl, rfl, ?_, ?_⟩
    · rw [if_neg hempty]
    · intro p hpb hkeys hnot hoccurs
      exact substitutePathParams_preserves_occurrence format p hpb params _ hkeys
        hnot hoccurs

theorem c5_http_body_amended_witness :
    ∃ spec : RequestSpec Str,
      invokeHTTP (fun (s : Str) => s)
        ⟨"http".toList, "http://api".toList, [], "POST".toList,
         "/users".toList, [], ["dry_run".toList], [], [], [], [], [], [], [],
         [], "application/json".toList⟩
        [("email".toList, "a@b".toList), ("name".toList, "A".toList),
         ("dry_run".toList, "false".toList)] = Except.ok spec ∧
      spec.body = RequestBody.jsonObj
        [("email".toList, "a@b".toList), ("name".toList, "A".toList)] := by
  rcases c5_http_body_amended (fun (s : Str) => s)
      ⟨"http".toList, "http://api".toList, [], "POST".toList,
       "/users".toList, [], ["dry_run".toList], [], [], [], [], [], [], [],
       [], "application/json".toList⟩
      [("email".toList, "a@b".toList), ("name".toList, "A".toList),
       ("dry_run".toList, "false".toList)]
      (Or.inl rfl) rfl rfl with ⟨spec, hok, _, hbody, _⟩
  refine ⟨spec, hok, ?_⟩
  rw [hbody]
  decide

/-! ## C9: idempotence of the OpenAPI name sanitizer -/

theorem map_id_of_mem {α : Type} (f : α → α) (l : List α)
    (h : ∀ c ∈ l, f c = c) : l.map f = l := by
  induction l with
  | nil => rfl
  | cons a t ih =>
      rw [List.map_cons, h a (List.mem_cons_self _ _),
        ih (fun c hc => h c (List.mem_cons_of_mem _ hc))]

theorem dropWhile_eq_self_of_head {α : Type} (p : α → Bool) (l : List α)
    (h : ∀ c, l.head? = some c → p c = false) : l.dropWhile p = l := by
  cases l with
  | nil => rfl
  | cons x xs =>
      have hx := h x rfl
      simp [List.dropWhile_cons, hx]

theorem mem_squashUS (c : Char) (l : Str) :
    (c ∈ squashUS l → c ∈ l) ∧ (c ∈ squashTail l → c ∈ l) := by
  induction l with
  | nil =>
      exact ⟨fun h => by simp [squashUS] at h,
             fun h => by simp [squashTail] at h⟩
  | cons a rest ih =>
      by_cases ha : a = '_'
      · subst ha
        constructor
        · intro h
          rw [squashUS_cons_us] at h
          rcases List.mem_cons.mp h with rfl | h2
          · exact List.mem_cons_self _ _
          · exact List.mem_cons_of_mem _ (ih.2 h2)
        · intro h
          rw [squashTail_cons_us] at h
          exact List.mem_cons_of_mem _ (ih.2 h)
      · constructor
        · intro h
          rw [squashUS_cons_ne _ _ ha] at h
          rcases List.mem_cons.mp h with rfl | h2
          · exact List.mem_cons_self _ _
          · exact List.mem_cons_of_mem _ (ih.1 h2)
        · intro h
          rw [squashTail_cons_ne _ _ ha] at h
          rcases List.mem_cons.mp h with rfl | h2
          · exact List.mem_cons_self _ _
          · exact List.mem_cons_of_mem _ (ih.1 h2)

theorem mem_trim {c : Char} {l : Str} (h : c ∈ trimUnderscores l) : c ∈ l := by
  unfold trimUnderscores at h
  rw [List.mem_reverse] at h
  have h2 := (List.dropWhile_sublist _).subset h
  rw [List.mem_reverse] at h2
  exact (List.dropWhile_sublist _).subset h2

theorem sanitizeName_chars (x : Str) (c : Char) (h : c ∈ sanitizeName x) :
    ∃ d, c = sanitizeReplaceChar (Char.toLower d) := by
  unfold sanitizeName at h
  have h1 := mem_trim h
  have h2 := (mem_squashUS c _).1 h1
  unfold sanitizeReplace lowerStr at h2
  rw [List.map_map] at h2
  rcases List.mem_map.mp h2 with ⟨d, _, hd⟩
  exact ⟨d, hd.symm⟩

theorem sanitizeReplaceChar_idem (e : Char) :
    sanitizeReplaceChar (sanitizeReplaceChar e) = sanitizeReplaceChar e := by
  by_cases hb : e = ' ' ∨ e = '-' ∨ e = '/' ∨ e = '.'
  · have h1 : sanitizeReplaceChar e = '_' := by
      unfold sanitizeReplaceChar
      rw [if_pos hb]
    rw [h1]
    decide
  · have h1 : sanitizeReplaceChar e = e := by
      unfold sanitizeReplaceChar
      rw [if_neg hb]
    rw [h1, h1]

theorem char_toNat_ofNat_of_valid (n : Nat) (h : n.isValidChar) :
    (Char.ofNat n).toNat = n := by
  unfold Char.ofNat
  rw [dif_pos h]
  rfl

theorem toLower_idem (c : Char) :
    Char.toLower (Char.toLower c) = Char.toLower c := by
  by_cases h : c.toNat ≥ 65 ∧ c.toNat ≤ 90
  · have h1 : Char.toLower c = Char.ofNat (c.toNat + 32) := by
      simp only [Char.toLower]
      rw [if_pos h]
    rw [h1]
    have hvalid : (c.toNat + 32).isValidChar := Or.inl (by omega)
    have htn : (Char.ofNat (c.toNat + 32)).toNat = c.toNat + 32 :=
      char_toNat_ofNat_of_valid _ hvalid
    simp only [Char.toLower]
    rw [if_neg]
    rw [htn]
    omega
  · have h1 : Char.toLower c = c := by
      simp only [Char.toLower]
      rw [if_neg h]
    rw [h1, h1]

theorem lowerStr_sanitizeName (x : Str) :
    lowerStr (sanitizeName x) = sanitizeName x := by
  unfold lowerStr
  apply map_id_of_mem
  intro c hc
  rcases sanitizeName_chars x c hc with ⟨d, rfl⟩
  by_cases hb : Char.toLower d = ' ' ∨ Char.toLower d = '-' ∨
      Char.toLower d = '/' ∨ Char.toLower d = '.'
  · have h1 : sanitizeReplaceChar (Char.toLower d) = '_' := by
      unfold sanitizeReplaceChar
      rw [if_pos hb]
    rw [h1]
    decide
  · have h1 : sanitizeReplaceChar (Char.toLower d) = Char.toLower d := by
      unfold sanitizeReplaceChar
      rw [if_neg hb]
    rw [h1]
    exact toLower_idem d

theorem sanitizeReplace_sanitizeName (x : Str) :
    sanitizeReplace (sanitizeName x) = sanitizeName x := by
  unfold sanitizeReplace
  apply map_id_of_mem
  intro c hc
  rcases sanitizeName_chars x c hc with ⟨d, rfl⟩
  exact sanitizeReplaceChar_idem (Char.toLower d)

theorem squash_noDouble (l : Str) :
    (¬ (['_', '_'] <:+: squashUS l)) ∧
    ((¬ (['_', '_'] <:+: squashTail l)) ∧ (squashTail l).head? ≠ some '_') := by
  induction l with
  | nil =>
      refine ⟨?_, ?_, ?_⟩
      · simp [squashUS]
      · simp [squashTail]
      · simp [squashTail]
  | cons a rest ih =>
      by_cases ha : a = '_'
      · subst ha
        refine ⟨?_, ?_, ?_⟩
        · rw [squashUS_cons_us]
          intro hinf
          rcases List.infix_cons_iff.mp hinf with hpre | hinf2
          · rcases hpre with ⟨r, hr⟩
            injection hr with _ hr2
            apply ih.2.2
            rw [← hr2]
            rfl
          · exact ih.2.1 hinf2
        · rw [squashTail_cons_us]
          exact ih.2.1
        · rw [squashTail_cons_us]
          exact ih.2.2
      · refine ⟨?_, ?_, ?_⟩
        · rw [squashUS_cons_ne _ _ ha]
          intro hinf
          rcases List.infix_cons_iff.mp hinf with hpre | hinf2
          · rcases hpre with ⟨r, hr⟩
            injection hr with h1 _
            exact ha h1.symm
          · exact ih.1 hinf2
        · rw [squashTail_cons_ne _ _ ha]
          intro hinf
          rcases List.infix_cons_iff.mp hinf with hpre | hinf2
          · rcases hpre with ⟨r, hr⟩
            injection hr with h1 _
            exact ha h1.symm
          · exact ih.1 hinf2
        · rw [squashTail_cons_ne _ _ ha]
          simp [ha]

theorem trimUnderscores_infix_self (l : Str) : trimUnderscores l <:+: l := by
  unfold trimUnderscores
  have h1 : (l.dropWhile (fun c => c = '_')).reverse.dropWhile (fun c => c = '_')
      <:+ (l.dropWhile (fun c => c = '_')).reverse := List.dropWhile_suffix _
  have h2 : ((l.dropWhile (fun c => c = '_')).reverse.dropWhile
      (fun c => c = '_')).reverse <+: l.dropWhile (fun c => c = '_') := by
    have := List.reverse_prefix.mpr h1
    simpa using this
  exact h2.isInfix.trans (List.dropWhile_suffix _).isInfix

theorem noDouble_trim {l : Str} (h : ¬ (['_', '_'] <:+: l)) :
    ¬ (['_', '_'] <:+: trimUnderscores l) :=
  fun hh => h (hh.trans (trimUnderscores_infix_self l))

theorem squash_sanitizeName (x : Str) :
    squashUS (sanitizeName x) = sanitizeName x := by
  have h2 : ¬ (['_', '_'] <:+: sanitizeName x) := by
    unfold sanitizeName
    exact noDouble_trim (squash_noDouble (sanitizeReplace (lowerStr x))).1
  exact (squash_eq_self_of_noDouble _ h2).1

theorem trim_head_ne (l : Str) (c : Char)
    (h : (trimUnderscores l).head? = some c) : c ≠ '_' := by
  unfold trimUnderscores at h
  rw [List.head?_reverse] at h
  rcases List.dropWhile_suffix (l := (l.dropWhile (fun c => c = '_')).reverse)
      (fun c => c = '_') with ⟨u, hu⟩
  have hAl : (l.dropWhile (fun c => c = '_')).reverse.getLast? = some c := by
    rw [← hu, List.getLast?_append, h]
    simp
  rw [List.getLast?_reverse] at hAl
  have hnot := List.head?_dropWhile_not (fun c => decide (c = '_')) l
  rw [hAl] at hnot
  simpa using hnot

theorem trim_getLast_ne (l : Str) (c : Char)
    (h : (trimUnderscores l).getLast? = some c) : c ≠ '_' := by
  unfold trimUnderscores at h
  rw [List.getLast?_reverse] at h
  have hnot := List.head?_dropWhile_not (fun c => decide (c = '_'))
    (l.dropWhile (fun c => c = '_')).reverse
  rw [h] at hnot
  simpa using hnot

theorem trim_idem (l : Str) :
    trimUnderscores (trimUnderscores l) = trimUnderscores l := by
  have hstep1 : (trimUnderscores l).dropWhile (fun c => c = '_')
      = trimUnderscores l := by
    apply dropWhile_eq_self_of_head
    intro c hc
    have := trim_head_ne l c hc
    simpa using this
  have hstep2 : ((trimUnderscores l).dropWhile (fun c => c = '_')).reverse.dropWhile
      (fun c => c = '_') = ((trimUnderscores l).dropWhile (fun c => c = '_')).reverse := by
    apply dropWhile_eq_self_of_head
    intro c hc
    rw [hstep1, List.head?_reverse] at hc
    have := trim_getLast_ne l c hc
    simpa using this
  show ((((trimUnderscores l).dropWhile (fun c => c = '_')).reverse.dropWhile
      (fun c => c = '_'))).reverse = trimUnderscores l
  rw [hstep2, hstep1, List.reverse_reverse]

theorem trim_sanitizeName (x : Str) :
    trimUnderscores (sanitizeName x) = sanitizeName x :=
  trim_idem (squashUS (sanitizeReplace (lowerStr x)))

theorem sanitizeName_idem (x : Str) :
    sanitizeName (sanitizeName x) = sanitizeName x := by
  show trimUnderscores (squashUS (sanitizeReplace (lowerStr (sanitizeName x))))
      = sanitizeName x
  rw [lowerStr_sanitizeName, sanitizeReplace_sanitizeName, squash_sanitizeName,
    trim_sanitizeName]

/-- C9 (confirmed): the OpenAPI name sanitizer — lower-case, replace space,
`-`, `/`, `.` by `_`, collapse `__` runs via the `ReplaceAll` loop, trim
leading/trailing `_` — is idempotent: `sanitize(sanitize(x)) ==
sanitize(x)` for every string. -/
theorem c9_sanitize_idempotent (x : Str) :
    sanitizeNameLoop (sanitizeNameLoop x) = sanitizeNameLoop x := by
  rw [← sanitizeName_eq_goLoop, ← sanitizeName_eq_goLoop]
  exact sanitizeName_idem x

end Mcpizer
